import Mathlib

/-!
A verification development for the microui immediate-mode UI core
(`microui.c` / `microui.h`).  The C sources are shallowly embedded:

* machine integers (`int`) become `Int`; the 32-bit unsigned identifier
  hash becomes `Nat` with explicit `% 2 ^ 32`;
* the context `mu_Context` becomes a record `Ctx`; its bounded stacks
  become lists whose head is the top of the stack (`items[idx-1]`);
* the command buffer becomes an association list of byte offsets to
  command records; jump destinations are byte offsets (`none` models a
  NULL destination);
* `expect(...)`-guarded operations (which `abort()` on failure) return
  `Option`, with `none` modelling the abort;
* drawing emission (filling the command buffer from widget code) and the
  libc text formatting/parsing calls (`sprintf`, `strtod`) do not affect
  the values and result flags the theorems below are about; where a
  modelled function omits or parametrises them this is noted in its
  doc comment.
-/

namespace MicroUI

/-- `mu_Vector2` from microui.h: a 2D integer vector. -/
structure Vec2 where
  x : Int
  y : Int
deriving DecidableEq, Repr

/-- `mu_Rectangle` from microui.h: integer rectangle. -/
structure Rect where
  x : Int
  y : Int
  w : Int
  h : Int
deriving DecidableEq, Repr

/-- `mu_min(a, b)` macro: `((a) < (b) ? (a) : (b))`. -/
def mu_min {α : Type} [LinearOrder α] (a b : α) : α :=
  if a < b then a else b

/-- `mu_max(a, b)` macro: `((a) > (b) ? (a) : (b))`. -/
def mu_max {α : Type} [LinearOrder α] (a b : α) : α :=
  if a > b then a else b

/-- `mu_clamp(x, a, b)` macro: `mu_min(b, mu_max(a, x))`. -/
def mu_clamp {α : Type} [LinearOrder α] (x a b : α) : α :=
  mu_min b (mu_max a x)

/-- `intersect_rects(r1, r2)` from microui.c: intersection with the
width/height clamped so that they are never negative. -/
def intersect_rects (r1 r2 : Rect) : Rect :=
  let x1 := mu_max r1.x r2.x
  let y1 := mu_max r1.y r2.y
  let x2 := mu_min (r1.x + r1.w) (r2.x + r2.w)
  let y2 := mu_min (r1.y + r1.h) (r2.y + r2.h)
  let x2 := if x2 < x1 then x1 else x2
  let y2 := if y2 < y1 then y1 else y2
  ⟨x1, y1, x2 - x1, y2 - y1⟩

/-- `rect_overlaps_vec2(r, p)` from microui.c: half-open point-in-rect
test, `p.x >= r.x && p.x < r.x + r.w && p.y >= r.y && p.y < r.y + r.h`. -/
def rect_overlaps_vec2 (r : Rect) (p : Vec2) : Bool :=
  p.x ≥ r.x && p.x < r.x + r.w && p.y ≥ r.y && p.y < r.y + r.h

/-- `expand_rect(rect, n)` from microui.c. -/
def expand_rect (r : Rect) (n : Int) : Rect :=
  ⟨r.x - n, r.y - n, r.w + n * 2, r.h + n * 2⟩

/-- `MU_CLIP_PART` enum value. -/
def MU_CLIP_PART : Int := 1
/-- `MU_CLIP_ALL` enum value. -/
def MU_CLIP_ALL : Int := 2

/-- `MU_RES_ACTIVE` result flag. -/
def MU_RES_ACTIVE : Nat := 1
/-- `MU_RES_SUBMIT` result flag. -/
def MU_RES_SUBMIT : Nat := 2
/-- `MU_RES_CHANGE` result flag. -/
def MU_RES_CHANGE : Nat := 4

/-- `MU_MOUSE_LEFT` button mask. -/
def MU_MOUSE_LEFT : Nat := 1

/-- `MU_KEY_SHIFT` key mask. -/
def MU_KEY_SHIFT : Nat := 1
/-- `MU_KEY_BACKSPACE` key mask. -/
def MU_KEY_BACKSPACE : Nat := 8
/-- `MU_KEY_RETURN` key mask. -/
def MU_KEY_RETURN : Nat := 16

/-- `MU_OPT_NOINTERACT` option flag. -/
def MU_OPT_NOINTERACT : Nat := 4
/-- `MU_OPT_HOLDFOCUS` option flag. -/
def MU_OPT_HOLDFOCUS : Nat := 256

/-- `HASH_INITIAL` from microui.c: the 32-bit FNV-1a offset basis. -/
def HASH_INITIAL : Nat := 2166136261

/-- The closed point set of a rectangle, used to give meaning to the
spec's notions of a rectangle being "fully inside" / "fully outside"
another: the point `p` lies within the closed extent of `r`. -/
def closedMem (r : Rect) (p : Int × Int) : Prop :=
  r.x ≤ p.1 ∧ p.1 ≤ r.x + r.w ∧ r.y ≤ p.2 ∧ p.2 ≤ r.y + r.h

/-- "R is fully outside C": no point of `r` lies in `c` (closed extents). -/
def FullyOutside (r c : Rect) : Prop :=
  ∀ p : Int × Int, closedMem r p → closedMem c p → False

/-- "R is fully inside C": every point of `r` lies in `c` (closed extents). -/
def FullyInside (r c : Rect) : Prop :=
  ∀ p : Int × Int, closedMem r p → closedMem c p

/-- The pure core of `mu_check_clip`: compares a rectangle `r` against
the clip rectangle `cr`, returning `MU_CLIP_ALL`, `0`, or `MU_CLIP_PART`. -/
def check_clip_rect (cr r : Rect) : Int :=
  if r.x > cr.x + cr.w ∨ r.x + r.w < cr.x ∨
     r.y > cr.y + cr.h ∨ r.y + r.h < cr.y then MU_CLIP_ALL
  else if r.x ≥ cr.x ∧ r.x + r.w ≤ cr.x + cr.w ∧
          r.y ≥ cr.y ∧ r.y + r.h ≤ cr.y + cr.h then 0
  else MU_CLIP_PART

/-! ## Command buffer

The C command list is a byte arena: each record starts with
`{ type, size }` and the iterator advances by `size` bytes.  We embed it
as an association list of byte offsets to records.  A record is either a
jump (fixed size `sizeof(mu_JumpCommand)`, destination an absolute byte
offset, `none` for NULL) or a non-jump drawing record tagged with its
command type and its size in bytes; the drawing payloads (rectangle,
color, text bytes, ...) play no role in the iteration claims and are not
carried. -/

/-- `sizeof(mu_JumpCommand)`: a fixed positive byte size.  The concrete
value is platform dependent; any positive constant is faithful. -/
def jsize : Nat := 16

/-- A command record: a jump, or a non-jump record with its type tag and
byte size. -/
inductive Cmd where
  | jump (dst : Option Nat)
  | draw (tag : Nat) (sz : Nat)
deriving DecidableEq, Repr

/-- The byte size stored in a record's `base.size` field. -/
def Cmd.size : Cmd → Nat
  | .jump _ => jsize
  | .draw _ sz => sz

/-- Whether a record's `type` is `MU_COMMAND_JUMP`. -/
def Cmd.isJump : Cmd → Bool
  | .jump _ => true
  | .draw _ _ => false

/-- The command list: records keyed by their byte offset. -/
abbrev Buffer := List (Nat × Cmd)

/-- Reading the record at byte offset `off` (the first matching cell). -/
def fetch : Buffer → Nat → Option Cmd
  | [], _ => none
  | (o, c) :: rest, off => if off = o then some c else fetch rest off

/-- Overwriting the record at byte offset `off` (models writing through
a `mu_Command*` that points at offset `off`). -/
def setAt : Buffer → Nat → Cmd → Buffer
  | [], _, _ => []
  | (o, c) :: rest, off, c2 =>
      (o, if off = o then c2 else c) :: setAt rest off c2

/-! ## Context

`mu_Context` with its bounded stacks as lists (head = top of stack,
i.e. `items[idx - 1]`).  Containers live in the `containers` pool array
and are referred to by index (C refers to them by pointer).  The two
client measurement callbacks are modelled only by their presence flags;
command emission from drawing helpers is not tracked through `Ctx`. -/

/-- `mu_Layout` from microui.h. -/
structure Layout where
  body : Rect := ⟨0, 0, 0, 0⟩
  next : Rect := ⟨0, 0, 0, 0⟩
  position : Vec2 := ⟨0, 0⟩
  size : Vec2 := ⟨0, 0⟩
  max : Vec2 := ⟨0, 0⟩
  widths : List Int := []
  items : Int := 0
  item_index : Int := 0
  next_row : Int := 0
  next_type : Int := 0
  indentation : Int := 0
deriving DecidableEq, Repr

/-- `mu_Style` (the geometric fields; the font handle and the color
palette are only consumed by drawing, which is not modelled). -/
structure Style where
  size : Vec2 := ⟨68, 10⟩
  padding : Int := 5
  spacing : Int := 4
  indentation : Int := 24
  title_height : Int := 24
  scrollbar_size : Int := 12
  thumb_size : Int := 8
deriving DecidableEq, Repr

/-- `mu_Container`.  `head` and `tail` are the byte offsets of the
container's bracketing jump records (`none` when unset / NULL);
`open_flag` is the C `open` field. -/
structure Container where
  head : Option Nat := none
  tail : Option Nat := none
  rect : Rect := ⟨0, 0, 0, 0⟩
  body : Rect := ⟨0, 0, 0, 0⟩
  content_size : Vec2 := ⟨0, 0⟩
  scroll : Vec2 := ⟨0, 0⟩
  zindex : Int := 0
  open_flag : Int := 0
deriving DecidableEq, Repr

/-- `mu_PoolItem`. -/
structure PoolItem where
  identifier : Nat
  last_update : Int
deriving DecidableEq, Repr

/-- `mu_Context`. -/
structure Ctx where
  has_text_width : Bool := true
  has_text_height : Bool := true
  style : Style := {}
  hover : Nat := 0
  focus : Nat := 0
  last_identifier : Nat := 0
  last_rect : Rect := ⟨0, 0, 0, 0⟩
  last_zindex : Int := 0
  updated_focus : Nat := 0
  frame : Int := 0
  hover_root : Option Nat := none
  next_hover_root : Option Nat := none
  scroll_target : Option Nat := none
  number_edit_buf : List Nat := []
  number_edit : Nat := 0
  cmds : Buffer := []
  cmd_idx : Nat := 0
  root_list : List Nat := []
  container_stack : List Nat := []
  clip_stack : List Rect := []
  id_stack : List Nat := []
  layout_stack : List Layout := []
  containers : List Container := []
  container_pool : List PoolItem := []
  treenode_pool : List PoolItem := []
  mouse_pos : Vec2 := ⟨0, 0⟩
  last_mouse_pos : Vec2 := ⟨0, 0⟩
  mouse_delta : Vec2 := ⟨0, 0⟩
  scroll_delta : Vec2 := ⟨0, 0⟩
  mouse_down : Nat := 0
  mouse_pressed : Nat := 0
  key_down : Nat := 0
  key_pressed : Nat := 0
  input_text : List Nat := []
deriving DecidableEq, Repr

/-! ## Identifier hash, clip stack, focus, input -/

/-- The static `hash` helper from microui.c: 32-bit FNV-1a over the data
bytes.  The C `*hash = (*hash ^ *p++) * 16777619` on a 32-bit unsigned
becomes an explicit `% 2 ^ 32`. -/
def hashBytes : Nat → List Nat → Nat
  | h, [] => h
  | h, b :: rest => hashBytes (((h ^^^ b) * 16777619) % 2 ^ 32) rest

/-- `mu_get_id(ctx, data, size)`: seeds from the top of the id stack (or
`HASH_INITIAL`), hashes the data bytes, records `last_identifier`. -/
def mu_get_id (ctx : Ctx) (data : List Nat) : Nat × Ctx :=
  let res := match ctx.id_stack with
    | [] => hashBytes HASH_INITIAL data
    | top :: _ => hashBytes top data
  (res, { ctx with last_identifier := res })

/-- `mu_set_focus(ctx, id)`. -/
def mu_set_focus (ctx : Ctx) (id : Nat) : Ctx :=
  { ctx with focus := id, updated_focus := 1 }

/-- `mu_get_clip_rect(ctx)`: top of the clip stack; the C version
asserts `clip_stack.idx > 0`, modelled by `none`. -/
def mu_get_clip_rect (ctx : Ctx) : Option Rect :=
  ctx.clip_stack.head?

/-- `mu_check_clip(ctx, r)`: `check_clip_rect` against the current clip
rectangle; `none` models the aborted assertion on an empty clip stack. -/
def mu_check_clip (ctx : Ctx) (r : Rect) : Option Int :=
  (mu_get_clip_rect ctx).map fun cr => check_clip_rect cr r

/-- `mu_push_clip_rect(ctx, rect)`: pushes the intersection with the
current clip rectangle. -/
def mu_push_clip_rect (ctx : Ctx) (r : Rect) : Option Ctx :=
  (mu_get_clip_rect ctx).map fun last =>
    { ctx with clip_stack := intersect_rects r last :: ctx.clip_stack }

/-- `mu_pop_clip_rect(ctx)`. -/
def mu_pop_clip_rect (ctx : Ctx) : Option Ctx :=
  match ctx.clip_stack with
  | [] => none
  | _ :: rest => some { ctx with clip_stack := rest }

/-- `mu_input_mousemove(ctx, x, y)`. -/
def mu_input_mousemove (ctx : Ctx) (x y : Int) : Ctx :=
  { ctx with mouse_pos := ⟨x, y⟩ }

/-- `mu_input_mousedown(ctx, x, y, btn)`. -/
def mu_input_mousedown (ctx : Ctx) (x y : Int) (btn : Nat) : Ctx :=
  let ctx := mu_input_mousemove ctx x y
  { ctx with mouse_down := ctx.mouse_down ||| btn,
             mouse_pressed := ctx.mouse_pressed ||| btn }

/-- `mu_input_mouseup(ctx, x, y, btn)`.  The C `mouse_down &= ~btn`
clears the `btn` bits; on `Nat` this is `mouse_down ^^^ (mouse_down &&& btn)`. -/
def mu_input_mouseup (ctx : Ctx) (x y : Int) (btn : Nat) : Ctx :=
  let ctx := mu_input_mousemove ctx x y
  { ctx with mouse_down := ctx.mouse_down ^^^ (ctx.mouse_down &&& btn) }

/-- `mu_begin(ctx)`: requires the two measurement callbacks (modelled by
their presence flags; `none` is the failed `expect`), clears the command
list and root list, shifts `hover_root`, computes the mouse delta and
advances the frame counter. -/
def mu_begin (ctx : Ctx) : Option Ctx :=
  if ctx.has_text_width ∧ ctx.has_text_height then
    some { ctx with
      cmds := [], cmd_idx := 0, root_list := [],
      scroll_target := none,
      hover_root := ctx.next_hover_root,
      next_hover_root := none,
      mouse_delta := ⟨ctx.mouse_pos.x - ctx.last_mouse_pos.x,
                      ctx.mouse_pos.y - ctx.last_mouse_pos.y⟩,
      frame := ctx.frame + 1 }
  else none

/-! ## Pools -/

/-- The scan loop of `mu_pool_init`: runs over the items with the
running least `last_update` in `f` (initially the current frame) and the
index of the slot that last strictly lowered it in `n` (initially
`-1`, modelled as `none`); `i` is the index of the next item. -/
def poolScan (f : Int) (n : Option Nat) (i : Nat) : List PoolItem → Int × Option Nat
  | [] => (f, n)
  | it :: rest =>
      if it.last_update < f then poolScan it.last_update (some i) (i + 1) rest
      else poolScan f n (i + 1) rest

/-- `mu_pool_init(ctx, items, len, id)`: evicts the least-recently
updated slot, writes the identifier and stamps the current frame
(`mu_pool_update`).  `none` models the aborted `expect(n > -1)` when no
slot has `last_update < frame`. -/
def mu_pool_init (frame : Int) (items : List PoolItem) (id : Nat) :
    Option (Nat × List PoolItem) :=
  match (poolScan frame none 0 items).2 with
  | none => none
  | some n => some (n, items.set n ⟨id, frame⟩)

/-- `mu_pool_get(ctx, items, len, id)`: index of the slot holding `id`,
or `-1` (modelled as `none`). -/
def mu_pool_get (items : List PoolItem) (id : Nat) : Option Nat :=
  items.findIdx? fun it => it.identifier = id

/-! ## Interaction core: mouse_over and update_control -/

/-- `in_hover_root(ctx)`: walks the container stack from the top looking
for `hover_root`, stopping at the first root container (one whose `head`
is set). -/
def in_hover_root (ctx : Ctx) : Bool :=
  go ctx.container_stack
where
  /-- The `while (i--)` loop over the container stack. -/
  go : List Nat → Bool
  | [] => false
  | i :: rest =>
    if ctx.hover_root = some i then true
    else if (ctx.containers.getD i {}).head ≠ none then false
    else go rest

/-- `mu_mouse_over(ctx, rect)`: mouse inside `rect`, inside the current
clip rectangle, and the container stack reaches the hover root.  `none`
models the aborted `expect` in `mu_get_clip_rect` on an empty clip
stack. -/
def mu_mouse_over (ctx : Ctx) (r : Rect) : Option Bool :=
  (mu_get_clip_rect ctx).map fun cr =>
    rect_overlaps_vec2 r ctx.mouse_pos &&
    rect_overlaps_vec2 cr ctx.mouse_pos &&
    in_hover_root ctx

/-- The first statement of `mu_update_control`: `if (ctx->focus == id)
ctx->updated_focus = 1;`. -/
def ucFocusTouch (ctx : Ctx) (id : Nat) : Ctx :=
  if ctx.focus = id then { ctx with updated_focus := 1 } else ctx

/-- The hover acquisition of `mu_update_control`:
`if (mouseover && !ctx->mouse_down) ctx->hover = id;`. -/
def ucHoverSet (ctx : Ctx) (id : Nat) (mouseover : Bool) : Ctx :=
  if mouseover ∧ ctx.mouse_down = 0 then { ctx with hover := id } else ctx

/-- The focus-release block of `mu_update_control`: on a press outside
the rect drop focus; on release drop focus unless `MU_OPT_HOLDFOCUS`.
The C condition `~opt & MU_OPT_HOLDFOCUS` (bitwise NOT) is nonzero
exactly when the `MU_OPT_HOLDFOCUS` bit of `opt` is clear. -/
def ucFocusDrop (ctx : Ctx) (id : Nat) (opt : Nat) (mouseover : Bool) : Ctx :=
  if ctx.focus = id then
    let c1 := if ctx.mouse_pressed ≠ 0 ∧ ¬mouseover then mu_set_focus ctx 0 else ctx
    if c1.mouse_down = 0 ∧ opt &&& MU_OPT_HOLDFOCUS = 0 then mu_set_focus c1 0 else c1
  else ctx

/-- The hover-resolution block of `mu_update_control`: on a fresh press
take focus, otherwise clear hover if the mouse has left. -/
def ucHoverResolve (ctx : Ctx) (id : Nat) (mouseover : Bool) : Ctx :=
  if ctx.hover = id then
    if ctx.mouse_pressed ≠ 0 then mu_set_focus ctx id
    else if ¬mouseover then { ctx with hover := 0 } else ctx
  else ctx

/-- `mu_update_control(ctx, id, rect, opt)`: the per-frame hover/focus
state machine, as the sequence of its statement blocks. -/
def mu_update_control (ctx : Ctx) (id : Nat) (r : Rect) (opt : Nat) : Option Ctx :=
  match mu_mouse_over ctx r with
  | none => none
  | some mouseover =>
    let ctx := ucFocusTouch ctx id
    if opt &&& MU_OPT_NOINTERACT ≠ 0 then some ctx
    else
      some (ucHoverResolve (ucFocusDrop (ucHoverSet ctx id mouseover) id opt mouseover)
              id mouseover)

/-- A context update touching only the interaction fields: used to
state that `mu_update_control` changes nothing besides `focus`, `hover`
and `updated_focus`. -/
def interactionUpd (c : Ctx) (f h u : Nat) : Ctx :=
  { c with focus := f, hover := h, updated_focus := u }

/-! ## Layout engine -/

/-- The `RELATIVE` enum value in microui.c. -/
def RELATIVE : Int := 1
/-- The `ABSOLUTE` enum value in microui.c. -/
def ABSOLUTE : Int := 2

/-- `mu_layout_row(ctx, items, widths, height)` acting on one layout
frame; `widths = none` models a NULL widths pointer (keep the previous
column widths). -/
def layoutRowCore (l : Layout) (items : Int) (widths : Option (List Int))
    (height : Int) : Layout :=
  let l := match widths with
    | some ws => { l with widths := ws }
    | none => l
  { l with items := items,
           position := ⟨l.indentation, l.next_row⟩,
           size := ⟨l.size.x, height⟩,
           item_index := 0 }

/-- The tail of `mu_layout_next`: advance the position cursor, update
`next_row`, apply the body offset and update the max extent. -/
def layoutFinish (style : Style) (l : Layout) (res : Rect) : Rect × Layout :=
  let l := { l with
    position := ⟨l.position.x + res.w + style.spacing, l.position.y⟩,
    next_row := mu_max l.next_row (res.y + res.h + style.spacing) }
  let res := { res with x := res.x + l.body.x, y := res.y + l.body.y }
  let l := { l with max := ⟨mu_max l.max.x (res.x + res.w),
                            mu_max l.max.y (res.y + res.h)⟩ }
  (res, l)

/-- `mu_layout_next(ctx)` acting on one layout frame: yields the next
widget rectangle and the updated layout frame. -/
def layoutNextCore (style : Style) (l : Layout) : Rect × Layout :=
  if l.next_type ≠ 0 then
    let ty := l.next_type
    let l := { l with next_type := 0 }
    let res := l.next
    if ty = ABSOLUTE then (res, l) else layoutFinish style l res
  else
    let l := if l.item_index = l.items then layoutRowCore l l.items none l.size.y else l
    let res : Rect :=
      ⟨l.position.x, l.position.y,
       if 0 < l.items then l.widths.getD l.item_index.toNat 0 else l.size.x,
       l.size.y⟩
    let res := if res.w = 0 then { res with w := style.size.x + style.padding * 2 } else res
    let res := if res.h = 0 then { res with h := style.size.y + style.padding * 2 } else res
    let res := if res.w < 0 then { res with w := res.w + (l.body.w - res.x + 1) } else res
    let res := if res.h < 0 then { res with h := res.h + (l.body.h - res.y + 1) } else res
    let l := { l with item_index := l.item_index + 1 }
    layoutFinish style l res

/-- `mu_layout_next(ctx)`: applies `layoutNextCore` to the top of the
layout stack and records `last_rect`.  `get_layout` reads
`items[idx - 1]`, which is undefined on an empty stack: `none`. -/
def mu_layout_next (ctx : Ctx) : Option (Rect × Ctx) :=
  match ctx.layout_stack with
  | [] => none
  | l :: rest =>
    let rl := layoutNextCore ctx.style l
    some (rl.1, { ctx with layout_stack := rl.2 :: rest, last_rect := rl.1 })

/-! ## Textbox -/

/-- The backspace loop of `mu_textbox_raw`:
`while ((buffer[--length] & 0xc0) == 0x80 && length > 0);` — called with
the current length, returns the truncation point after walking back over
UTF-8 continuation bytes. -/
def bsLoop (buffer : List Nat) : Nat → Nat
  | 0 => 0
  | l + 1 =>
      if (buffer.getD l 0) &&& 0xc0 = 0x80 ∧ 0 < l then bsLoop buffer l else l

/-- `mu_textbox_raw(ctx, buffer, bufsz, id, rect, opt)`: the interaction
and text-editing behaviour.  The buffer is the NUL-free byte list of the
C string.  Drawing (control frame, text, caret) only emits commands and
is not modelled.  Returns the result flags, the new buffer contents and
the updated context; `none` is the aborted assertion inside
`mu_update_control`. -/
def mu_textbox_raw (ctx : Ctx) (buffer : List Nat) (bufsz : Nat) (id : Nat)
    (r : Rect) (opt : Nat) : Option (Nat × List Nat × Ctx) :=
  match mu_update_control ctx id r (opt ||| MU_OPT_HOLDFOCUS) with
  | none => none
  | some ctx =>
    if ctx.focus = id then
      let res : Nat := 0
      let n : Int := mu_min ((bufsz : Int) - (buffer.length : Int) - 1)
                            (ctx.input_text.length : Int)
      let br : List Nat × Nat :=
        if 0 < n then (buffer ++ ctx.input_text.take n.toNat, res ||| MU_RES_CHANGE)
        else (buffer, res)
      let buffer := br.1
      let res := br.2
      let br : List Nat × Nat :=
        if ctx.key_pressed &&& MU_KEY_BACKSPACE ≠ 0 ∧ 0 < buffer.length then
          (buffer.take (bsLoop buffer buffer.length), res ||| MU_RES_CHANGE)
        else (buffer, res)
      let buffer := br.1
      let res := br.2
      let cr : Ctx × Nat :=
        if ctx.key_pressed &&& MU_KEY_RETURN ≠ 0 then
          (mu_set_focus ctx 0, res ||| MU_RES_SUBMIT)
        else (ctx, res)
      some (cr.2, buffer, cr.1)
    else
      some (0, buffer, ctx)

/-! ## Slider -/

/-- The C cast `(long long)` applied to a rational: truncation toward
zero (`Int` division of numerator by positive denominator). -/
def cTrunc (q : ℚ) : Int := q.num / (q.den : Int)

/-- `number_textbox(ctx, value, rect, id)`: number-edit entry and exit.
`mu_Real` is embedded as `ℚ`; the libc calls are parameters: `fmtF`
stands for `sprintf(buf, MU_REAL_FMT, value)` and `strtodF` for
`strtod(buf, NULL)`.  Returns (still-editing?, value, ctx). -/
def number_textbox (fmtF : ℚ → List Nat) (strtodF : List Nat → ℚ) (ctx : Ctx)
    (value : ℚ) (r : Rect) (id : Nat) : Option (Bool × ℚ × Ctx) :=
  let ctx :=
    if ctx.mouse_pressed = MU_MOUSE_LEFT ∧ ctx.key_down &&& MU_KEY_SHIFT ≠ 0 ∧
       ctx.hover = id then
      { ctx with number_edit := id, number_edit_buf := fmtF value }
    else ctx
  if ctx.number_edit = id then
    match mu_textbox_raw ctx ctx.number_edit_buf 127 id r 0 with
    | none => none
    | some (res, buf, ctx) =>
      let ctx := { ctx with number_edit_buf := buf }
      if res &&& MU_RES_SUBMIT ≠ 0 ∨ ctx.focus ≠ id then
        (some (false, strtodF buf, { ctx with number_edit := 0 }))
      else some (true, value, ctx)
  else some (false, value, ctx)

/-- `mu_slider_ex(ctx, value, low, high, step, fmt, opt)`.  `mu_Real`
is embedded as `ℚ`; `addr` is the byte image of the `value` pointer
that the C hashes for the identifier; `fmtF`/`strtodF` parametrise the
libc formatting calls as in `number_textbox`.  Drawing (base frame,
thumb, text) only emits commands and is not modelled.  Returns the
stored value, the result flags and the updated context. -/
def mu_slider_ex (fmtF : ℚ → List Nat) (strtodF : List Nat → ℚ) (ctx : Ctx)
    (value : ℚ) (addr : List Nat) (low high step : ℚ) (opt : Nat) :
    Option (ℚ × Nat × Ctx) :=
  let last := value
  let v := last
  let ictx := mu_get_id ctx addr
  let id := ictx.1
  match mu_layout_next ictx.2 with
  | none => none
  | some (base, ctx) =>
    match number_textbox fmtF strtodF ctx v base id with
    | none => none
    | some (editing, v, ctx) =>
      if editing then some (value, 0, ctx)
      else
        match mu_update_control ctx id base opt with
        | none => none
        | some ctx =>
          let v :=
            if ctx.focus = id ∧ (ctx.mouse_down ||| ctx.mouse_pressed) = MU_MOUSE_LEFT then
              let v := low + (ctx.mouse_pos.x - base.x : Int) * (high - low) / (base.w : ℚ)
              if step ≠ 0 then (cTrunc ((v + step / 2) / step) : ℚ) * step else v
            else v
          let v := mu_clamp v low high
          let res := if last ≠ v then MU_RES_CHANGE else 0
          some (v, res, ctx)

/-! ## Frames of root containers and the jump chain

A frame built between `mu_begin` and `mu_end` (with every drawing
command emitted inside some root container, and root containers not
nested inside one another) lays the command buffer out as one block per
root container in declaration order.  Each block is the head jump pushed
by `begin_root_container` (whose destination `end_root_container` set to
the end of the block), the body commands, and the tail jump pushed by
`end_root_container` with a NULL destination. -/

/-- A root container as declared during the frame: its z-index and the
non-jump commands emitted inside it. -/
structure RootDecl where
  zindex : Int
  body : List Cmd
deriving DecidableEq, Repr

/-- Total byte size of a list of commands. -/
def bodyLen (b : List Cmd) : Nat := (b.map Cmd.size).sum

/-- Byte size of a root container's block: head jump, body, tail jump. -/
def blockLen (r : RootDecl) : Nat := jsize + bodyLen r.body + jsize

/-- Lay out commands at consecutive byte offsets starting at `o`. -/
def layoutBody : Nat → List Cmd → Buffer
  | _, [] => []
  | o, c :: cs => (o, c) :: layoutBody (o + c.size) cs

/-- One root container's block starting at byte offset `o`. -/
def emitRoot (o : Nat) (r : RootDecl) : Buffer :=
  (o, .jump (some (o + blockLen r))) ::
    (layoutBody (o + jsize) r.body ++ [(o + jsize + bodyLen r.body, .jump none)])

/-- The command buffer of a frame: the blocks of the declared roots. -/
def emitFrame : Nat → List RootDecl → Buffer
  | _, [] => []
  | o, r :: rs => emitRoot o r ++ emitFrame (o + blockLen r) rs

/-- Total byte size of a frame (`command_list.idx` after the frame). -/
def frameLen : List RootDecl → Nat
  | [] => 0
  | r :: rs => blockLen r + frameLen rs

/-- The declared roots annotated with their blocks' head byte offsets
(the C `cnt->head` pointers). -/
def annotate : Nat → List RootDecl → List (Nat × RootDecl)
  | _, [] => []
  | o, r :: rs => (o, r) :: annotate (o + blockLen r) rs

/-- Byte offset of the `j`-th body command of a body laid out at `o`. -/
def cellOff (o : Nat) (b : List Cmd) (j : Nat) : Nat := o + bodyLen (b.take j)

/-- Byte offset of a root's tail jump (the C `cnt->tail` pointer). -/
def tailOffA (a : Nat × RootDecl) : Nat := a.1 + jsize + bodyLen a.2.body

/-- The patch loop of `mu_end` for `i > 0`: each root's tail jump is
pointed just past the next root's head jump, and the last root's tail
jump at the end of the command list (`total`). -/
def patchTails (total : Nat) (buf : Buffer) : List (Nat × RootDecl) → Buffer
  | [] => buf
  | [a] => setAt buf (tailOffA a) (.jump (some total))
  | a :: b :: rest =>
      patchTails total (setAt buf (tailOffA a) (.jump (some (b.1 + jsize))))
        (b :: rest)

/-- The jump-chain fix-up of `mu_end` applied to the z-sorted root list
`s`: the very first command of the buffer (the first declared root's
head jump) is pointed just past the first sorted root's head jump, then
the tail jumps are threaded by `patchTails`. -/
def muEndPatch (total : Nat) (buf : Buffer) (s : List (Nat × RootDecl)) : Buffer :=
  match s with
  | [] => buf
  | a :: _ => patchTails total (setAt buf 0 (.jump (some (a.1 + jsize)))) s

/-- The `while` loop of `mu_next_command`: from byte offset `off`,
follow jumps until a non-jump record or the end of the list (`total`)
is reached.  `fuel` bounds the number of iterations; exhausted fuel and
a malformed buffer (missing cell, NULL jump) also give `none`. -/
def jumpFollow (buf : Buffer) (total : Nat) : Nat → Nat → Option (Nat × Cmd)
  | 0, _ => none
  | fuel + 1, off =>
    if off = total then none
    else
      match fetch buf off with
      | some (.jump (some d)) => jumpFollow buf total fuel d
      | some (.jump none) => none
      | some c => some (off, c)
      | none => none

/-- `mu_next_command(ctx, &cmd)`: a NULL cursor starts at the beginning
of the buffer, otherwise the cursor advances by the current record's
size; then jumps are followed.  `none` models the `return 0` at the end
of iteration. -/
def mu_next_command (buf : Buffer) (total fuel : Nat) :
    Option (Nat × Cmd) → Option (Nat × Cmd)
  | none => jumpFollow buf total fuel 0
  | some (o, c) => jumpFollow buf total fuel (o + c.size)

/-- Every command returned by iterating `mu_next_command` from a NULL
cursor, for at most `steps` iterations. -/
def collectFrom (buf : Buffer) (total fuel : Nat) :
    Nat → Option (Nat × Cmd) → List Cmd
  | 0, _ => []
  | steps + 1, cur =>
    match mu_next_command buf total fuel cur with
    | none => []
    | some (o, c) => c :: collectFrom buf total fuel steps (some (o, c))

/-- Iteration restarted at a raw byte offset (the state of the iterator
just after advancing past a returned record). -/
def scanCollect (buf : Buffer) (total fuel : Nat) : Nat → Nat → List Cmd
  | 0, _ => []
  | steps + 1, off =>
    match jumpFollow buf total fuel off with
    | none => []
    | some (o, c) => c :: scanCollect buf total fuel steps (o + c.size)

/-- The annotated body cells of a list of roots: each body laid out just
past its root's head jump. -/
def annFlat (t : List (Nat × RootDecl)) : Buffer :=
  t.flatMap fun a => layoutBody (a.1 + jsize) a.2.body

/-- The bodies of a list of annotated roots, concatenated in order. -/
def flatBodies (t : List (Nat × RootDecl)) : List Cmd :=
  (t.map fun a => a.2.body).flatten

/-- Where the chain enters a suffix of the sorted root list: just past
the first root's head jump, or the end of the buffer for the empty
suffix. -/
def entryOff (total : Nat) : List (Nat × RootDecl) → Nat
  | [] => total
  | a :: _ => a.1 + jsize

/-- The first command the iterator returns when entering a suffix of
the sorted root list: the first body command of the first root whose
body is non-empty (empty-bodied roots are skipped by following their
tail jumps), or `none` past the last root. -/
def chainHead : List (Nat × RootDecl) → Option (Nat × Cmd)
  | [] => none
  | σ :: s2 =>
    match σ.2.body with
    | [] => chainHead s2
    | c :: _ => some (σ.1 + jsize, c)

/-! ## Frame end -/

/-- Insertion of a container index into a list sorted by z-index. -/
def insertByZ (z : Nat → Int) (i : Nat) : List Nat → List Nat
  | [] => [i]
  | j :: rest => if z i ≤ z j then i :: j :: rest else j :: insertByZ z i rest

/-- `qsort(root_list.items, n, ..., compare_zindex)`: sorts the root
list ascending by z-index (insertion sort; `qsort`'s order on equal
keys is unspecified, and the properties proved below do not depend on
it). -/
def sortByZ (z : Nat → Int) : List Nat → List Nat
  | [] => []
  | i :: rest => insertByZ z i (sortByZ z rest)

/-- The (head, tail) jump offsets of the sorted root containers; `none`
if some root has no head or tail recorded (in C that would dereference
a NULL `cnt->head`/`cnt->tail`). -/
def rootPairs (conts : List Container) : List Nat → Option (List (Nat × Nat))
  | [] => some []
  | i :: rest =>
    match (conts.getD i {}).head, (conts.getD i {}).tail, rootPairs conts rest with
    | some h, some t, some ps => some ((h, t) :: ps)
    | _, _, _ => none

/-- The `i > 0` part of the `mu_end` patch loop over (head, tail) byte
offset pairs. -/
def patchTailsP (total : Nat) (buf : Buffer) : List (Nat × Nat) → Buffer
  | [] => buf
  | [(_, t)] => setAt buf t (.jump (some total))
  | (_, t) :: (h2, t2) :: rest =>
      patchTailsP total (setAt buf t (.jump (some (h2 + jsize)))) ((h2, t2) :: rest)

/-- The full `mu_end` patch loop over (head, tail) byte offset pairs. -/
def patchPairs (total : Nat) (buf : Buffer) : List (Nat × Nat) → Buffer
  | [] => buf
  | (h, t) :: rest =>
      patchTailsP total (setAt buf 0 (.jump (some (h + jsize)))) ((h, t) :: rest)

/-- `mu_bring_to_front(ctx, cnt)` for the container at index `i`. -/
def mu_bring_to_front (ctx : Ctx) (i : Nat) : Ctx :=
  let c := ctx.containers.getD i {}
  { ctx with
    last_zindex := ctx.last_zindex + 1,
    containers := ctx.containers.set i { c with zindex := ctx.last_zindex + 1 } }

/-- The scroll-input block of `mu_end`: apply the accumulated scroll
delta to the scroll target, if any. -/
def endScrollStep (ctx : Ctx) : Ctx :=
  match ctx.scroll_target with
  | some i =>
    let c := ctx.containers.getD i {}
    let c2 := { c with scroll := ⟨c.scroll.x + ctx.scroll_delta.x,
                                  c.scroll.y + ctx.scroll_delta.y⟩ }
    { ctx with containers := ctx.containers.set i c2 }
  | none => ctx

/-- The focus-resolution block of `mu_end`: unset focus if it was not
touched this frame, then clear the touch flag. -/
def endFocusStep (ctx : Ctx) : Ctx :=
  let c := if ctx.updated_focus = 0 then { ctx with focus := 0 } else ctx
  { c with updated_focus := 0 }

/-- The bring-to-front block of `mu_end`. -/
def endBringToFrontStep (ctx : Ctx) : Ctx :=
  if ctx.mouse_pressed ≠ 0 then
    match ctx.next_hover_root with
    | some i =>
      if (ctx.containers.getD i {}).zindex < ctx.last_zindex ∧
         0 ≤ (ctx.containers.getD i {}).zindex then
        mu_bring_to_front ctx i
      else ctx
    | none => ctx
  else ctx

/-- The input-reset block of `mu_end`. -/
def endInputResetStep (ctx : Ctx) : Ctx :=
  { ctx with
    key_pressed := 0, input_text := [], mouse_pressed := 0,
    scroll_delta := ⟨0, 0⟩, last_mouse_pos := ctx.mouse_pos }

/-- The z-sort and jump-chain patch block of `mu_end`. -/
def endSortPatchStep (ctx : Ctx) : Option Ctx :=
  let sorted := sortByZ (fun i => (ctx.containers.getD i {}).zindex) ctx.root_list
  match rootPairs ctx.containers sorted with
  | none => none
  | some pairs => some { ctx with cmds := patchPairs ctx.cmd_idx ctx.cmds pairs }

/-- The bundle of context fields none of the `mu_end` steps modify
(used to state the frame-boundary invariants). -/
def endFrameFields (c : Ctx) :
    List Nat × List Rect × List Nat × List Layout × Nat × List Nat × Bool × Bool :=
  (c.container_stack, c.clip_stack, c.id_stack, c.layout_stack,
   c.cmd_idx, c.root_list, c.has_text_width, c.has_text_height)

/-- `mu_end(ctx)`: asserts the four nesting stacks are empty (`none`
models the abort), applies the scroll input, resolves focus, brings the
hover root to the front on a press, resets the per-frame input state,
sorts the root list by z-index and patches the jump chain. -/
def mu_end (ctx : Ctx) : Option Ctx :=
  if ctx.container_stack = [] ∧ ctx.clip_stack = [] ∧ ctx.id_stack = [] ∧
     ctx.layout_stack = [] then
    endSortPatchStep
      (endInputResetStep (endBringToFrontStep (endFocusStep (endScrollStep ctx))))
  else none

/-! # Theorems -/

/-! ## C6: rectangle intersection -/

/-- Claim C6: for all rectangles `A` and `B`, `intersect_rects(A, B)`
has non-negative width and height, and as a point set (the library's
own half-open `rect_overlaps_vec2` membership) it is contained in the
intersection of `A` and `B`. -/
theorem C6_intersect_rects_subset (r1 r2 : Rect) :
    0 ≤ (intersect_rects r1 r2).w ∧ 0 ≤ (intersect_rects r1 r2).h ∧
    ∀ p : Vec2, rect_overlaps_vec2 (intersect_rects r1 r2) p = true →
      rect_overlaps_vec2 r1 p = true ∧ rect_overlaps_vec2 r2 p = true := by
  unfold intersect_rects rect_overlaps_vec2 mu_min mu_max
  refine ⟨?_, ?_, ?_⟩
  · split_ifs <;> simp <;> omega
  · split_ifs <;> simp <;> omega
  · intro p hp
    simp only [Bool.and_eq_true, decide_eq_true_eq] at hp ⊢
    split_ifs at hp <;> omega

/-- Witness for C6 at a concrete input: the intersection point `(6, 6)`
of two overlapping rectangles lies in both. -/
theorem C6_intersect_rects_subset_witness :
    rect_overlaps_vec2 (intersect_rects ⟨0, 0, 10, 10⟩ ⟨5, 5, 10, 10⟩) ⟨6, 6⟩ = true ∧
    rect_overlaps_vec2 (⟨0, 0, 10, 10⟩ : Rect) ⟨6, 6⟩ = true ∧
    rect_overlaps_vec2 (⟨5, 5, 10, 10⟩ : Rect) ⟨6, 6⟩ = true :=
  ⟨by decide,
   ((C6_intersect_rects_subset ⟨0, 0, 10, 10⟩ ⟨5, 5, 10, 10⟩).2.2 ⟨6, 6⟩ (by decide)).1,
   ((C6_intersect_rects_subset ⟨0, 0, 10, 10⟩ ⟨5, 5, 10, 10⟩).2.2 ⟨6, 6⟩ (by decide)).2⟩

/-! ## C5: check_clip trichotomy -/

/-- `check_clip_rect` only takes the three documented values. -/
theorem check_clip_rect_cases (cr r : Rect) :
    check_clip_rect cr r = MU_CLIP_ALL ∨ check_clip_rect cr r = 0 ∨
    check_clip_rect cr r = MU_CLIP_PART := by
  unfold check_clip_rect
  split_ifs <;> simp

/-- For rectangles with non-negative sizes, the `MU_CLIP_ALL` test of
`mu_check_clip` is exactly closed-extent disjointness. -/
theorem fullyOutside_iff_cond (r cr : Rect) (hrw : 0 ≤ r.w) (hrh : 0 ≤ r.h)
    (hcw : 0 ≤ cr.w) (hch : 0 ≤ cr.h) :
    FullyOutside r cr ↔
      (r.x > cr.x + cr.w ∨ r.x + r.w < cr.x ∨ r.y > cr.y + cr.h ∨ r.y + r.h < cr.y) := by
  constructor
  · intro h
    by_contra hc
    push_neg at hc
    refine h (max r.x cr.x, max r.y cr.y) ?_ ?_ <;> · unfold closedMem; dsimp; omega
  · intro h p hp1 hp2
    unfold closedMem at hp1 hp2
    omega

/-- For rectangles with non-negative sizes, the inside test of
`mu_check_clip` is exactly closed-extent containment. -/
theorem fullyInside_iff_cond (r cr : Rect) (hrw : 0 ≤ r.w) (hrh : 0 ≤ r.h) :
    FullyInside r cr ↔
      (r.x ≥ cr.x ∧ r.x + r.w ≤ cr.x + cr.w ∧ r.y ≥ cr.y ∧ r.y + r.h ≤ cr.y + cr.h) := by
  constructor
  · intro h
    have h1 := h (r.x, r.y) (by unfold closedMem; dsimp; omega)
    have h2 := h (r.x + r.w, r.y + r.h) (by unfold closedMem; dsimp; omega)
    unfold closedMem at h1 h2
    omega
  · intro h p hp
    unfold closedMem at hp ⊢
    omega

/-- Counterexample to claim C5 as stated over every rectangle: the
degenerate rectangle `(5, 5, -2, -2)` has an empty point set, hence is
fully outside the clip rectangle `(0, 0, 10, 10)`, yet `mu_check_clip`
returns `0` rather than `MU_CLIP_ALL`. -/
theorem C5_check_clip_counterexample :
    mu_check_clip { clip_stack := [⟨0, 0, 10, 10⟩] } ⟨5, 5, -2, -2⟩ = some 0 ∧
    FullyOutside ⟨5, 5, -2, -2⟩ ⟨0, 0, 10, 10⟩ ∧ (0 : Int) ≠ MU_CLIP_ALL := by
  refine ⟨by decide, ?_, by decide⟩
  intro p hp _
  unfold closedMem at hp
  dsimp at hp
  omega

/-- Claim C5 amended: for every rectangle `R` with non-negative width
and height and every context whose clip stack is non-empty with current
clip rectangle `C` (clip rectangles always have non-negative sizes),
`mu_check_clip R` returns `MU_CLIP_ALL` exactly when `R` is fully
outside `C`, `0` exactly when `R` is fully inside `C`, and
`MU_CLIP_PART` in every other case (closed extents). -/
theorem C5_check_clip_trichotomy (ctx : Ctx) (r cr : Rect) (tl : List Rect)
    (hst : ctx.clip_stack = cr :: tl) (hrw : 0 ≤ r.w) (hrh : 0 ≤ r.h)
    (hcw : 0 ≤ cr.w) (hch : 0 ≤ cr.h) :
    (mu_check_clip ctx r = some MU_CLIP_ALL ↔ FullyOutside r cr) ∧
    (mu_check_clip ctx r = some 0 ↔ FullyInside r cr) ∧
    (mu_check_clip ctx r = some MU_CLIP_PART ↔
      ¬FullyOutside r cr ∧ ¬FullyInside r cr) := by
  have hm : mu_check_clip ctx r = some (check_clip_rect cr r) := by
    simp [mu_check_clip, mu_get_clip_rect, hst]
  rw [hm]
  simp only [Option.some.injEq]
  have hout := fullyOutside_iff_cond r cr hrw hrh hcw hch
  have hin := fullyInside_iff_cond r cr hrw hrh
  have hall : check_clip_rect cr r = MU_CLIP_ALL ↔ FullyOutside r cr := by
    rw [hout]
    unfold check_clip_rect MU_CLIP_ALL MU_CLIP_PART
    split_ifs with h1 h2 <;> simp <;> omega
  have hzero : check_clip_rect cr r = 0 ↔ FullyInside r cr := by
    rw [hin]
    unfold check_clip_rect MU_CLIP_ALL MU_CLIP_PART
    split_ifs with h1 h2 <;> simp <;> omega
  refine ⟨hall, hzero, ?_⟩
  constructor
  · intro h
    rw [← hall, ← hzero]
    constructor <;> · intro hc; rw [h] at hc; revert hc; decide
  · intro ⟨h1, h2⟩
    rcases check_clip_rect_cases cr r with h | h | h
    · exact absurd (hall.mp h) h1
    · exact absurd (hzero.mp h) h2
    · exact h

/-- Witness for the amended C5 at a concrete input: a rectangle
straddling the clip boundary is classified `MU_CLIP_PART`, being
neither fully outside nor fully inside. -/
theorem C5_check_clip_trichotomy_witness :
    ({ clip_stack := [⟨0, 0, 10, 10⟩] } : Ctx).clip_stack = ⟨0, 0, 10, 10⟩ :: [] ∧
    (mu_check_clip { clip_stack := [⟨0, 0, 10, 10⟩] } ⟨5, 5, 10, 10⟩ = some MU_CLIP_PART ↔
      ¬FullyOutside ⟨5, 5, 10, 10⟩ ⟨0, 0, 10, 10⟩ ∧
      ¬FullyInside ⟨5, 5, 10, 10⟩ ⟨0, 0, 10, 10⟩) :=
  ⟨rfl,
   (C5_check_clip_trichotomy { clip_stack := [⟨0, 0, 10, 10⟩] } ⟨5, 5, 10, 10⟩
     ⟨0, 0, 10, 10⟩ [] rfl (by decide) (by decide) (by decide) (by decide)).2.2⟩

/-! ## C4: identifier hash -/

/-- The `hash` loop of microui.c folds the bytes left to right. -/
theorem hashBytes_foldl (h : Nat) (data : List Nat) :
    hashBytes h data =
      data.foldl (fun a b => ((a ^^^ b) * 16777619) % 2 ^ 32) h := by
  induction data generalizing h with
  | nil => rfl
  | cons b rest ih => simp [hashBytes, ih]

/-- Claim C4: `mu_get_id` is a pure function of the input bytes and the
top of the id stack: it seeds with the top of the id stack (or
`2166136261` when the stack is empty) and folds each byte by xor then
multiplication by `16777619` modulo `2^32`; it stores the result in
`last_identifier` and changes nothing else in the context; two contexts
with the same id-stack top produce the same identifier. -/
theorem C4_get_id_pure (ctx : Ctx) (data : List Nat) :
    (mu_get_id ctx data).1 =
      data.foldl (fun a b => ((a ^^^ b) * 16777619) % 2 ^ 32)
        (ctx.id_stack.headD 2166136261) ∧
    (mu_get_id ctx data).2 = { ctx with last_identifier := (mu_get_id ctx data).1 } ∧
    ∀ ctx2 : Ctx, ctx2.id_stack.headD 2166136261 = ctx.id_stack.headD 2166136261 →
      (mu_get_id ctx2 data).1 = (mu_get_id ctx data).1 := by
  have key : ∀ c : Ctx, (mu_get_id c data).1 =
      data.foldl (fun a b => ((a ^^^ b) * 16777619) % 2 ^ 32)
        (c.id_stack.headD 2166136261) := by
    intro c
    cases hs : c.id_stack with
    | nil => simp [mu_get_id, hs, hashBytes_foldl, HASH_INITIAL]
    | cons top rest => simp [mu_get_id, hs, hashBytes_foldl]
  refine ⟨key ctx, ?_, fun ctx2 h2 => by rw [key ctx2, key ctx, h2]⟩
  cases hs : ctx.id_stack <;> simp [mu_get_id, hs]

/-- Witness for C4 at concrete inputs: hashing the bytes `[104, 105]`
in a fresh context, and in a second context that differs everywhere but
has the same (empty) id stack. -/
theorem C4_get_id_pure_witness :
    (mu_get_id {} [104, 105]).1 =
      [104, 105].foldl (fun a b => ((a ^^^ b) * 16777619) % 2 ^ 32) 2166136261 ∧
    (mu_get_id { focus := 7, frame := 3 } [104, 105]).1 = (mu_get_id {} [104, 105]).1 :=
  ⟨(C4_get_id_pure {} [104, 105]).1,
   (C4_get_id_pure {} [104, 105]).2.2 { focus := 7, frame := 3 } (by decide)⟩

/-! ## C3: pool initialisation -/

/-- When no remaining item improves on the running minimum, the
`mu_pool_init` scan changes nothing. -/
theorem poolScan_no_update (l : List PoolItem) (f : Int) (acc : Option Nat) (i : Nat)
    (h : ∀ it ∈ l, ¬ it.last_update < f) : poolScan f acc i l = (f, acc) := by
  induction l generalizing f acc i with
  | nil => rfl
  | cons it rest ih =>
    have hit := h it (by simp)
    simp only [poolScan, if_neg hit]
    exact ih f acc (i + 1) fun x hx => h x (by simp [hx])

/-- When some item lies strictly below the running minimum, the
`mu_pool_init` scan returns the first index achieving the least
`last_update`. -/
theorem poolScan_found (l : List PoolItem) (f : Int) (acc : Option Nat) (i : Nat)
    (h : ∃ it ∈ l, it.last_update < f) :
    ∃ k, ∃ hk : k < l.length,
      (poolScan f acc i l).2 = some (i + k) ∧
      (poolScan f acc i l).1 = (l.get ⟨k, hk⟩).last_update ∧
      (l.get ⟨k, hk⟩).last_update < f ∧
      (∀ j, ∀ hj : j < l.length,
        (l.get ⟨k, hk⟩).last_update ≤ (l.get ⟨j, hj⟩).last_update) ∧
      (∀ j, ∀ hj : j < l.length, j < k →
        (l.get ⟨k, hk⟩).last_update < (l.get ⟨j, hj⟩).last_update) := by
  induction l generalizing f acc i with
  | nil => simp at h
  | cons it rest ih =>
    by_cases hlt : it.last_update < f
    · simp only [poolScan, if_pos hlt]
      by_cases hex : ∃ x ∈ rest, x.last_update < it.last_update
      · obtain ⟨k, hk, hs2, hs1, hklt, hkmin, hkfirst⟩ :=
          ih it.last_update (some i) (i + 1) hex
        refine ⟨k + 1, by simpa using Nat.succ_lt_succ hk, ?_, ?_, ?_, ?_, ?_⟩
        · rw [hs2]; congr 1; omega
        · simpa using hs1
        · simp only [List.get_cons_succ]; exact lt_trans hklt hlt
        · intro j hj
          cases j with
          | zero => simpa using le_of_lt hklt
          | succ j => simpa using hkmin j (by simpa using Nat.lt_of_succ_lt_succ hj)
        · intro j hj hjk
          cases j with
          | zero => simpa using hklt
          | succ j =>
            simpa using hkfirst j (by simpa using Nat.lt_of_succ_lt_succ hj) (by omega)
      · push_neg at hex
        rw [poolScan_no_update rest it.last_update (some i) (i + 1)
          fun x hx => not_lt.mpr (hex x hx)]
        refine ⟨0, by simp, by simp, by simp, by simpa using hlt, ?_, by omega⟩
        intro j hj
        cases j with
        | zero => simp
        | succ j =>
          have hj2 : j < rest.length := by simpa using Nat.lt_of_succ_lt_succ hj
          simpa using hex (rest.get ⟨j, hj2⟩) (List.get_mem rest j hj2)
    · simp only [poolScan, if_neg hlt]
      have hex : ∃ x ∈ rest, x.last_update < f := by
        obtain ⟨x, hx, hxf⟩ := h
        rcases List.mem_cons.mp hx with rfl | hx2
        · exact absurd hxf hlt
        · exact ⟨x, hx2, hxf⟩
      obtain ⟨k, hk, hs2, hs1, hklt, hkmin, hkfirst⟩ := ih f acc (i + 1) hex
      refine ⟨k + 1, by simpa using Nat.succ_lt_succ hk, ?_, ?_, ?_, ?_, ?_⟩
      · rw [hs2]; congr 1; omega
      · simpa using hs1
      · simpa using hklt
      · intro j hj
        cases j with
        | zero =>
          simp only [List.get_cons_succ, List.get_cons_zero]
          exact le_of_lt (lt_of_lt_of_le hklt (not_lt.mp hlt))
        | succ j => simpa using hkmin j (by simpa using Nat.lt_of_succ_lt_succ hj)
      · intro j hj hjk
        cases j with
        | zero =>
          simp only [List.get_cons_succ, List.get_cons_zero]
          exact lt_of_lt_of_le hklt (not_lt.mp hlt)
        | succ j =>
          simpa using hkfirst j (by simpa using Nat.lt_of_succ_lt_succ hj) (by omega)

/-- Counterexample to claim C3 as stated: with every slot of a full
48-slot pool already stamped with the current frame number 5,
`mu_pool_init` does not succeed — the scan finds no slot and the
`expect(n > -1)` assertion aborts (`none`). -/
theorem C3_pool_init_counterexample :
    (∀ it ∈ List.replicate 48 (⟨0, (5 : Int)⟩ : PoolItem), it.last_update = 5) ∧
    mu_pool_init 5 (List.replicate 48 ⟨0, 5⟩) 123 = none := by decide

/-- Claim C3 amended: whenever some slot has `last_update` strictly
below the current frame, `mu_pool_init` succeeds, evicting the slot
with the oldest `last_update` (ties broken by lowest index), writing
the new identifier and the current frame there, and returning that
index; if every slot's `last_update` already equals the current frame
it aborts instead. -/
theorem C3_pool_init_evicts_oldest (frame : Int) (items : List PoolItem) (id : Nat)
    (h : ∃ it ∈ items, it.last_update < frame) :
    ∃ n, ∃ hn : n < items.length,
      mu_pool_init frame items id = some (n, items.set n ⟨id, frame⟩) ∧
      (items.get ⟨n, hn⟩).last_update < frame ∧
      (∀ j, ∀ hj : j < items.length,
        (items.get ⟨n, hn⟩).last_update ≤ (items.get ⟨j, hj⟩).last_update) ∧
      (∀ j, ∀ hj : j < items.length, j < n →
        (items.get ⟨n, hn⟩).last_update < (items.get ⟨j, hj⟩).last_update) := by
  obtain ⟨k, hk, hs2, _, hklt, hkmin, hkfirst⟩ := poolScan_found items frame none 0 h
  refine ⟨k, hk, ?_, hklt, hkmin, hkfirst⟩
  unfold mu_pool_init
  rw [hs2]
  simp

/-- Witness for the amended C3 at a concrete input: in the pool
`[{lu 3}, {lu 1}, {lu 1}]` at frame 5, the slot with the oldest stamp
and the lowest index is index 1. -/
theorem C3_pool_init_evicts_oldest_witness :
    (∃ it ∈ ([⟨9, 3⟩, ⟨8, 1⟩, ⟨7, 1⟩] : List PoolItem), it.last_update < 5) ∧
    (∃ n, ∃ hn : n < ([⟨9, 3⟩, ⟨8, 1⟩, ⟨7, 1⟩] : List PoolItem).length,
      mu_pool_init 5 [⟨9, 3⟩, ⟨8, 1⟩, ⟨7, 1⟩] 42 =
        some (n, ([⟨9, 3⟩, ⟨8, 1⟩, ⟨7, 1⟩] : List PoolItem).set n ⟨42, 5⟩) ∧
      (([⟨9, 3⟩, ⟨8, 1⟩, ⟨7, 1⟩] : List PoolItem).get ⟨n, hn⟩).last_update < 5 ∧
      (∀ j, ∀ hj : j < ([⟨9, 3⟩, ⟨8, 1⟩, ⟨7, 1⟩] : List PoolItem).length,
        (([⟨9, 3⟩, ⟨8, 1⟩, ⟨7, 1⟩] : List PoolItem).get ⟨n, hn⟩).last_update ≤
          (([⟨9, 3⟩, ⟨8, 1⟩, ⟨7, 1⟩] : List PoolItem).get ⟨j, hj⟩).last_update) ∧
      (∀ j, ∀ hj : j < ([⟨9, 3⟩, ⟨8, 1⟩, ⟨7, 1⟩] : List PoolItem).length, j < n →
        (([⟨9, 3⟩, ⟨8, 1⟩, ⟨7, 1⟩] : List PoolItem).get ⟨n, hn⟩).last_update <
          (([⟨9, 3⟩, ⟨8, 1⟩, ⟨7, 1⟩] : List PoolItem).get ⟨j, hj⟩).last_update)) :=
  ⟨by decide, C3_pool_init_evicts_oldest 5 [⟨9, 3⟩, ⟨8, 1⟩, ⟨7, 1⟩] 42 (by decide)⟩

/-! ## C8: layout fill width -/

/-- Counterexample to claim C8 as stated: a column width of `-2` in a
body of width `100` with the cursor at `x = 0` yields a widget width of
`99 = (100 - 0) + 1 - 2`, not `(100 - 0) + 1 - (2 - 1) = 100` as the
claimed formula states. -/
theorem C8_layout_fill_counterexample :
    ((layoutNextCore {}
        { body := ⟨0, 0, 100, 50⟩, widths := [-2], items := 1,
          size := ⟨0, 10⟩ }).1).w = 99 ∧
    (99 : Int) ≠ (100 - 0) + 1 - (2 - 1) := by decide

/-- Claim C8 amended: in `mu_layout_next`, a column width of `-k`
(`k > 0`) at layout-local cursor position `x` in a layout body of width
`W` yields a widget width of `(W − x) + 1 − k`; in particular a single
column of width `-1` with the cursor at `x = 0` yields the full body
width `W`. -/
theorem C8_layout_fill_width (style : Style) (l : Layout) (k : Int)
    (hnt : l.next_type = 0) (hidx : 0 ≤ l.item_index) (hlt : l.item_index < l.items)
    (hw : l.widths.getD l.item_index.toNat 0 = -k) (hk : 0 < k) :
    ((layoutNextCore style l).1).w = (l.body.w - l.position.x) + 1 - k := by
  have hpos : 0 < l.items := lt_of_le_of_lt hidx hlt
  simp only [layoutNextCore, layoutFinish, hnt, ne_eq, not_true_eq_false,
    if_neg hlt.ne, if_pos hpos, hw]
  norm_num
  split_ifs <;> simp_all <;> omega

/-- Witness for the amended C8 at a concrete input: a single column of
width `-1` with the cursor at `x = 0` in a body of width `77` fills the
whole body. -/
theorem C8_layout_fill_width_witness :
    ((layoutNextCore {}
        { body := ⟨0, 0, 77, 50⟩, widths := [-1], items := 1,
          size := ⟨0, 10⟩ }).1).w = (77 - 0) + 1 - 1 :=
  C8_layout_fill_width {}
    { body := ⟨0, 0, 77, 50⟩, widths := [-1], items := 1, size := ⟨0, 10⟩ }
    1 rfl (by decide) (by decide) (by decide) (by decide)

/-! ## Shared facts about update_control, begin and end -/

/-- Setting bits and then masking by them yields the mask. -/
theorem lor_land_self (a b : Nat) : (a ||| b) &&& b = b := by
  apply Nat.eq_of_testBit_eq
  intro i
  rw [Nat.testBit_land, Nat.testBit_lor]
  cases hb : b.testBit i <;> simp

/-- Collapsing two interaction-field updates. -/
theorem interactionUpd_comp (c : Ctx) (f1 h1 u1 f2 h2 u2 : Nat) :
    interactionUpd (interactionUpd c f1 h1 u1) f2 h2 u2 = interactionUpd c f2 h2 u2 := rfl

/-- Chaining the update shapes of two interaction steps. -/
theorem interactionUpd_chain {c d e : Ctx}
    (hd : ∃ f h u, d = interactionUpd c f h u)
    (he : ∃ f h u, e = interactionUpd d f h u) :
    ∃ f h u, e = interactionUpd c f h u := by
  obtain ⟨f1, o1, u1, e1⟩ := hd
  obtain ⟨f2, o2, u2, e2⟩ := he
  exact ⟨f2, o2, u2, by rw [e2, e1, interactionUpd_comp]⟩

/-- `ucFocusTouch` only touches the interaction fields. -/
theorem ucFocusTouch_shape (c : Ctx) (id : Nat) :
    ∃ f h u, ucFocusTouch c id = interactionUpd c f h u := by
  unfold ucFocusTouch interactionUpd
  split_ifs
  · exact ⟨c.focus, c.hover, 1, rfl⟩
  · exact ⟨c.focus, c.hover, c.updated_focus, rfl⟩

/-- `ucHoverSet` only touches the interaction fields. -/
theorem ucHoverSet_shape (c : Ctx) (id : Nat) (mo : Bool) :
    ∃ f h u, ucHoverSet c id mo = interactionUpd c f h u := by
  unfold ucHoverSet interactionUpd
  split_ifs
  · exact ⟨c.focus, id, c.updated_focus, rfl⟩
  · exact ⟨c.focus, c.hover, c.updated_focus, rfl⟩

/-- `ucFocusDrop` only touches the interaction fields. -/
theorem ucFocusDrop_shape (c : Ctx) (id opt : Nat) (mo : Bool) :
    ∃ f h u, ucFocusDrop c id opt mo = interactionUpd c f h u := by
  unfold ucFocusDrop mu_set_focus interactionUpd
  dsimp only
  split_ifs <;>
    first
      | exact ⟨0, c.hover, 1, rfl⟩
      | exact ⟨c.focus, c.hover, c.updated_focus, rfl⟩

/-- `ucHoverResolve` only touches the interaction fields. -/
theorem ucHoverResolve_shape (c : Ctx) (id : Nat) (mo : Bool) :
    ∃ f h u, ucHoverResolve c id mo = interactionUpd c f h u := by
  unfold ucHoverResolve mu_set_focus interactionUpd
  split_ifs <;>
    first
      | exact ⟨id, c.hover, 1, rfl⟩
      | exact ⟨c.focus, 0, c.updated_focus, rfl⟩
      | exact ⟨c.focus, c.hover, c.updated_focus, rfl⟩

/-- A successful `mu_update_control` only changes the interaction
fields `focus`, `hover` and `updated_focus`. -/
theorem update_control_shape (ctx : Ctx) (id : Nat) (r : Rect) (opt : Nat)
    (ctx2 : Ctx) (h : mu_update_control ctx id r opt = some ctx2) :
    ∃ f ho u, ctx2 = interactionUpd ctx f ho u := by
  unfold mu_update_control at h
  cases hmo : mu_mouse_over ctx r with
  | none => rw [hmo] at h; cases h
  | some mo =>
    rw [hmo] at h
    dsimp only at h
    split_ifs at h
    · injection h with h2
      obtain ⟨f, ho, u, e⟩ := ucFocusTouch_shape ctx id
      exact ⟨f, ho, u, by rw [← h2, e]⟩
    · injection h with h2
      refine h2 ▸ interactionUpd_chain (ucFocusTouch_shape ctx id)
        (interactionUpd_chain (ucHoverSet_shape _ id mo)
          (interactionUpd_chain (ucFocusDrop_shape _ id opt mo)
            (ucHoverResolve_shape _ id mo)))

/-- `mu_update_control` never touches the input state, the layout or
clip stacks, the command list or the number-edit state. -/
theorem update_control_preserved (ctx : Ctx) (id : Nat) (r : Rect) (opt : Nat)
    (ctx2 : Ctx) (h : mu_update_control ctx id r opt = some ctx2) :
    ctx2.mouse_pressed = ctx.mouse_pressed ∧ ctx2.key_pressed = ctx.key_pressed ∧
    ctx2.input_text = ctx.input_text ∧ ctx2.mouse_down = ctx.mouse_down ∧
    ctx2.mouse_pos = ctx.mouse_pos ∧ ctx2.key_down = ctx.key_down ∧
    ctx2.number_edit = ctx.number_edit ∧ ctx2.layout_stack = ctx.layout_stack ∧
    ctx2.clip_stack = ctx.clip_stack ∧ ctx2.cmd_idx = ctx.cmd_idx ∧
    ctx2.root_list = ctx.root_list ∧ ctx2.container_stack = ctx.container_stack ∧
    ctx2.id_stack = ctx.id_stack := by
  obtain ⟨f, ho, u, rfl⟩ := update_control_shape ctx id r opt ctx2 h
  exact ⟨rfl, rfl, rfl, rfl, rfl, rfl, rfl, rfl, rfl, rfl, rfl, rfl, rfl⟩

/-- `ucFocusTouch` does not change `focus`. -/
theorem ucFocusTouch_focus (c : Ctx) (id : Nat) :
    (ucFocusTouch c id).focus = c.focus := by
  unfold ucFocusTouch; split_ifs <;> rfl

/-- `ucHoverSet` does not change `focus`. -/
theorem ucHoverSet_focus (c : Ctx) (id : Nat) (mo : Bool) :
    (ucHoverSet c id mo).focus = c.focus := by
  unfold ucHoverSet; split_ifs <;> rfl

/-- With no fresh press and `MU_OPT_HOLDFOCUS` set, `ucFocusDrop`
does not change `focus`. -/
theorem ucFocusDrop_focus (c : Ctx) (id opt : Nat) (mo : Bool)
    (hmp : c.mouse_pressed = 0) (hopt : opt &&& MU_OPT_HOLDFOCUS ≠ 0) :
    (ucFocusDrop c id opt mo).focus = c.focus := by
  unfold ucFocusDrop mu_set_focus
  dsimp only
  split_ifs <;> first | rfl | simp_all

/-- If the control already has focus, it still has it after
`ucHoverResolve`. -/
theorem ucHoverResolve_focus (c : Ctx) (id : Nat) (mo : Bool)
    (hf : c.focus = id) : (ucHoverResolve c id mo).focus = id := by
  unfold ucHoverResolve mu_set_focus
  split_ifs <;> first | rfl | exact hf

/-- While no button is pressed this instant and `MU_OPT_HOLDFOCUS` is
in effect, `mu_update_control` keeps the focus on the control. -/
theorem update_control_focus_kept (ctx : Ctx) (id : Nat) (r : Rect) (opt : Nat)
    (ctx2 : Ctx) (hf : ctx.focus = id) (hmp : ctx.mouse_pressed = 0)
    (hopt : opt &&& MU_OPT_HOLDFOCUS ≠ 0)
    (h : mu_update_control ctx id r opt = some ctx2) : ctx2.focus = id := by
  have hft : (ucFocusTouch ctx id).focus = id := by rw [ucFocusTouch_focus]; exact hf
  unfold mu_update_control at h
  cases hmo : mu_mouse_over ctx r with
  | none => rw [hmo] at h; cases h
  | some mo =>
    rw [hmo] at h
    dsimp only at h
    split_ifs at h
    · injection h with h2; rw [← h2]; exact hft
    · injection h with h2
      rw [← h2]
      obtain ⟨f1, o1, u1, e1⟩ := ucFocusTouch_shape ctx id
      obtain ⟨f2, o2, u2, e2⟩ := ucHoverSet_shape (ucFocusTouch ctx id) id mo
      have hmp2 : (ucHoverSet (ucFocusTouch ctx id) id mo).mouse_pressed = 0 := by
        rw [e2, e1]; exact hmp
      have hf2 : (ucHoverSet (ucFocusTouch ctx id) id mo).focus = id := by
        rw [ucHoverSet_focus]; exact hft
      have hf3 := ucFocusDrop_focus (ucHoverSet (ucFocusTouch ctx id) id mo)
        id opt mo hmp2 hopt
      exact ucHoverResolve_focus _ id mo (hf3.trans hf2)

/-- `endScrollStep` only changes the container pool. -/
theorem endScrollStep_shape (c : Ctx) :
    ∃ cs, endScrollStep c = { c with containers := cs } := by
  unfold endScrollStep
  split
  · exact ⟨_, rfl⟩
  · exact ⟨c.containers, rfl⟩

/-- `endFocusStep` only changes `focus` and clears `updated_focus`. -/
theorem endFocusStep_shape (c : Ctx) :
    ∃ f, endFocusStep c = { c with focus := f, updated_focus := 0 } := by
  unfold endFocusStep
  split_ifs
  · exact ⟨0, rfl⟩
  · exact ⟨c.focus, rfl⟩

/-- `endBringToFrontStep` only changes `last_zindex` and the container
pool. -/
theorem endBringToFrontStep_shape (c : Ctx) :
    ∃ z cs, endBringToFrontStep c = { c with last_zindex := z, containers := cs } := by
  unfold endBringToFrontStep mu_bring_to_front
  split_ifs
  · split
    · split_ifs
      · exact ⟨_, _, rfl⟩
      · exact ⟨c.last_zindex, c.containers, rfl⟩
    · exact ⟨c.last_zindex, c.containers, rfl⟩
  · exact ⟨c.last_zindex, c.containers, rfl⟩

/-- A successful `endSortPatchStep` only changes the command list. -/
theorem endSortPatchStep_shape (c c2 : Ctx) (h : endSortPatchStep c = some c2) :
    ∃ cm, c2 = { c with cmds := cm } := by
  unfold endSortPatchStep at h
  dsimp only at h
  split at h
  · cases h
  · injection h with h2; exact ⟨_, h2.symm⟩

/-- `endScrollStep` preserves the frame-boundary fields. -/
theorem endScrollStep_frame (c : Ctx) :
    endFrameFields (endScrollStep c) = endFrameFields c := by
  obtain ⟨cs, e⟩ := endScrollStep_shape c
  rw [e]; rfl

/-- `endFocusStep` preserves the frame-boundary fields. -/
theorem endFocusStep_frame (c : Ctx) :
    endFrameFields (endFocusStep c) = endFrameFields c := by
  obtain ⟨f, e⟩ := endFocusStep_shape c
  rw [e]; rfl

/-- `endBringToFrontStep` preserves the frame-boundary fields. -/
theorem endBringToFrontStep_frame (c : Ctx) :
    endFrameFields (endBringToFrontStep c) = endFrameFields c := by
  obtain ⟨z, cs, e⟩ := endBringToFrontStep_shape c
  rw [e]; rfl

/-- `endFocusStep` clears the focus-touch flag. -/
theorem endFocusStep_updated (c : Ctx) : (endFocusStep c).updated_focus = 0 := by
  obtain ⟨f, e⟩ := endFocusStep_shape c
  rw [e]

/-- `endBringToFrontStep` leaves the focus-touch flag alone. -/
theorem endBringToFrontStep_updated (c : Ctx) :
    (endBringToFrontStep c).updated_focus = c.updated_focus := by
  obtain ⟨z, cs, e⟩ := endBringToFrontStep_shape c
  rw [e]

/-- The state of `mu_end` after a successful return: the four nesting
stacks are empty, the focus-touch flag and per-frame input accumulators
are reset, and the command list depth and root list are untouched. -/
theorem mu_end_fields (ctx c : Ctx) (h : mu_end ctx = some c) :
    c.container_stack = [] ∧ c.clip_stack = [] ∧ c.id_stack = [] ∧
    c.layout_stack = [] ∧ c.updated_focus = 0 ∧ c.mouse_pressed = 0 ∧
    c.key_pressed = 0 ∧ c.input_text = [] ∧ c.cmd_idx = ctx.cmd_idx ∧
    c.root_list = ctx.root_list ∧ c.has_text_width = ctx.has_text_width ∧
    c.has_text_height = ctx.has_text_height := by
  unfold mu_end at h
  by_cases hstk : ctx.container_stack = [] ∧ ctx.clip_stack = [] ∧
      ctx.id_stack = [] ∧ ctx.layout_stack = []
  case neg => rw [if_neg hstk] at h; cases h
  rw [if_pos hstk] at h
  obtain ⟨hcs, hclip, hid, hlay⟩ := hstk
  obtain ⟨cm, e5⟩ := endSortPatchStep_shape _ c h
  have F : endFrameFields c = endFrameFields ctx := by
    rw [e5]
    show endFrameFields (endBringToFrontStep (endFocusStep (endScrollStep ctx))) =
      endFrameFields ctx
    rw [endBringToFrontStep_frame, endFocusStep_frame, endScrollStep_frame]
  have hu : c.updated_focus = 0 := by
    rw [e5]
    show (endBringToFrontStep (endFocusStep (endScrollStep ctx))).updated_focus = 0
    rw [endBringToFrontStep_updated, endFocusStep_updated]
  have hmpr : c.mouse_pressed = 0 := by rw [e5]; rfl
  have hkpr : c.key_pressed = 0 := by rw [e5]; rfl
  have hitx : c.input_text = [] := by rw [e5]; rfl
  simp only [endFrameFields, Prod.mk.injEq] at F
  obtain ⟨f1, f2, f3, f4, f5, f6, f7, f8⟩ := F
  exact ⟨f1.trans hcs, f2.trans hclip, f3.trans hid, f4.trans hlay,
    hu, hmpr, hkpr, hitx, f5, f6, f7, f8⟩

/-! ## C10: mouseup and press persistence -/

/-- Claim C10: `mu_input_mouseup` clears the given button bits only in
`mouse_down` and updates `mouse_pos`, leaving `mouse_pressed` (and all
other context state) unchanged; a mousedown followed by a mouseup
delivered between two frames is still observed as a press after
`mu_begin`; `mu_update_control` never changes `mouse_pressed` during
the frame, and `mu_end` is what clears it. -/
theorem C10_mouseup_press_persists (ctx : Ctx) (x y x2 y2 : Int) (btn : Nat) :
    mu_input_mouseup ctx x2 y2 btn =
      { ctx with mouse_pos := ⟨x2, y2⟩,
                 mouse_down := ctx.mouse_down ^^^ (ctx.mouse_down &&& btn) } ∧
    (mu_input_mouseup ctx x2 y2 btn).mouse_pressed = ctx.mouse_pressed ∧
    (∀ ctx2 : Ctx,
      mu_begin (mu_input_mouseup (mu_input_mousedown ctx x y btn) x2 y2 btn) = some ctx2 →
      ctx2.mouse_pressed &&& btn = btn) ∧
    (∀ (c : Ctx) (id : Nat) (r : Rect) (opt : Nat) (c2 : Ctx),
      mu_update_control c id r opt = some c2 → c2.mouse_pressed = c.mouse_pressed) ∧
    (∀ c c2 : Ctx, mu_end c = some c2 → c2.mouse_pressed = 0) := by
  refine ⟨rfl, rfl, ?_, ?_, ?_⟩
  · intro ctx2 h
    unfold mu_begin at h
    split_ifs at h
    injection h with h2
    rw [← h2]
    exact lor_land_self ctx.mouse_pressed btn
  · intro c id r opt c2 h
    exact (update_control_preserved c id r opt c2 h).1
  · intro c c2 h
    exact (mu_end_fields c c2 h).2.2.2.2.2.1

/-- Witness for C10 at concrete inputs: after a down/up pair between
frames, the press is still visible after `mu_begin`. -/
theorem C10_mouseup_press_persists_witness :
    (mu_input_mouseup {} 3 4 1).mouse_pressed = ({} : Ctx).mouse_pressed ∧
    (mu_begin (mu_input_mouseup (mu_input_mousedown {} 2 2 1) 3 4 1)).map
      (fun c => c.mouse_pressed &&& 1) = some 1 := by
  refine ⟨(C10_mouseup_press_persists {} 2 2 3 4 1).2.1, ?_⟩
  cases hb : mu_begin (mu_input_mouseup (mu_input_mousedown {} 2 2 1) 3 4 1) with
  | none => exact absurd hb (by decide)
  | some c2 =>
    have hp := (C10_mouseup_press_persists {} 2 2 3 4 1).2.2.1 c2 hb
    dsimp only [Option.map]
    rw [hp]

/-! ## C2: frame-boundary stack invariant -/

/-- Counterexample to claim C2 as stated: a frame that pushed a single
5-byte command outside any window (e.g. via `mu_set_clip`) ends with
`mu_end` succeeding but the command list still holding 5 bytes — the
command list (and likewise the root list) is cleared by the next
`mu_begin`, not by `mu_end`. -/
theorem C2_stacks_counterexample :
    (mu_end { cmds := [(0, Cmd.draw 3 5)], cmd_idx := 5, updated_focus := 1 }).map
        Ctx.cmd_idx = some 5 ∧ (5 : Nat) ≠ 0 := by decide

/-- Claim C2 amended: after every successful return of `mu_end`, the
container, clip, id and layout stacks have depth 0 and `updated_focus`
is 0; the command list and the root list keep the frame's contents
(depths unchanged) and are cleared at the next `mu_begin`. -/
theorem C2_end_stack_invariant (ctx : Ctx) (h : (mu_end ctx).isSome = true) :
    (mu_end ctx).map (fun c => (c.container_stack, c.clip_stack, c.id_stack,
        c.layout_stack, c.updated_focus, c.cmd_idx, c.root_list)) =
      some ([], [], [], [], 0, ctx.cmd_idx, ctx.root_list) ∧
    (mu_end ctx).map (fun c => (mu_begin c).map fun c3 => (c3.cmd_idx, c3.root_list)) =
      some (if ctx.has_text_width ∧ ctx.has_text_height then
              some (0, ([] : List Nat)) else none) := by
  cases hm : mu_end ctx with
  | none => rw [hm] at h; cases h
  | some c =>
    obtain ⟨h1, h2, h3, h4, h5, _, _, _, h9, h10, h11, h12⟩ := mu_end_fields ctx c hm
    constructor
    · simp [h1, h2, h3, h4, h5, h9, h10]
    · dsimp only [Option.map]
      unfold mu_begin
      rw [h11, h12]
      split_ifs <;> simp

/-- Witness for the amended C2 at the concrete frame used in the
counterexample: the four nesting stacks and `updated_focus` are zero
after `mu_end`, the command and root lists survive until `mu_begin`
clears them. -/
theorem C2_end_stack_invariant_witness :
    (mu_end { cmds := [(0, Cmd.draw 3 5)], cmd_idx := 5, updated_focus := 1 }).map
        (fun c => (c.container_stack, c.clip_stack, c.id_stack, c.layout_stack,
          c.updated_focus, c.cmd_idx, c.root_list)) =
      some ([], [], [], [], 0,
        ({ cmds := [(0, Cmd.draw 3 5)], cmd_idx := 5, updated_focus := 1 } : Ctx).cmd_idx,
        ({ cmds := [(0, Cmd.draw 3 5)], cmd_idx := 5, updated_focus := 1 } : Ctx).root_list) ∧
    (mu_end { cmds := [(0, Cmd.draw 3 5)], cmd_idx := 5, updated_focus := 1 }).map
        (fun c => (mu_begin c).map fun c3 => (c3.cmd_idx, c3.root_list)) =
      some (if ({ cmds := [(0, Cmd.draw 3 5)], cmd_idx := 5, updated_focus := 1 } : Ctx).has_text_width ∧
              ({ cmds := [(0, Cmd.draw 3 5)], cmd_idx := 5, updated_focus := 1 } : Ctx).has_text_height then
              some (0, ([] : List Nat)) else none) :=
  C2_end_stack_invariant { cmds := [(0, Cmd.draw 3 5)], cmd_idx := 5, updated_focus := 1 }
    (by decide)

/-! ## C7: textbox backspace and UTF-8 -/

/-- With a non-empty clip stack, `mu_update_control` does not abort. -/
theorem update_control_some (ctx : Ctx) (id : Nat) (r : Rect) (opt : Nat)
    (hclip : ctx.clip_stack ≠ []) :
    ∃ c2, mu_update_control ctx id r opt = some c2 := by
  unfold mu_update_control
  cases hcs : ctx.clip_stack with
  | nil => exact absurd hcs hclip
  | cons cr tl =>
    have hmo : mu_mouse_over ctx r =
        some (rect_overlaps_vec2 r ctx.mouse_pos &&
              rect_overlaps_vec2 cr ctx.mouse_pos && in_hover_root ctx) := by
      simp [mu_mouse_over, mu_get_clip_rect, hcs]
    rw [hmo]
    dsimp only
    split_ifs <;> exact ⟨_, rfl⟩

/-- `List.getD` of an append, inside the first part. -/
theorem getD_append_lt (xs ys : List Nat) (i d : Nat) (h : i < xs.length) :
    (xs ++ ys).getD i d = xs.getD i d := by
  induction xs generalizing i with
  | nil => simp at h
  | cons x xs ih =>
    cases i with
    | zero => rfl
    | succ i => simpa using ih i (by simpa using Nat.lt_of_succ_lt_succ h)

/-- `List.getD` of an append, at the junction. -/
theorem getD_append_length (xs : List Nat) (y : Nat) (ys : List Nat) (d : Nat) :
    (xs ++ y :: ys).getD xs.length d = y := by
  induction xs with
  | nil => rfl
  | cons x xs ih => simpa using ih

/-- The backspace loop never looks at or beyond its starting length. -/
theorem bsLoop_append (xs ys : List Nat) (n : Nat) (h : n ≤ xs.length) :
    bsLoop (xs ++ ys) n = bsLoop xs n := by
  induction n with
  | zero => rfl
  | succ n ih =>
    unfold bsLoop
    rw [getD_append_lt xs ys n 0 (by omega), ih (by omega)]

/-- The backspace loop on a buffer ending in one whole UTF-8 code point
(a lead byte followed by continuation bytes) truncates exactly that
code point. -/
theorem bsLoop_spec (pre : List Nat) (lead : Nat) (hl : lead &&& 0xc0 ≠ 0x80) :
    ∀ conts : List Nat, (∀ b ∈ conts, b &&& 0xc0 = 0x80) →
      bsLoop (pre ++ lead :: conts) (pre ++ lead :: conts).length = pre.length := by
  intro conts
  induction conts using List.reverseRecOn with
  | nil =>
    intro _
    have hlen : (pre ++ [lead]).length = pre.length + 1 := by simp
    rw [hlen]
    unfold bsLoop
    rw [getD_append_length pre lead [] 0]
    simp [hl]
  | append_singleton cs c ih =>
    intro hc
    have hstep : pre ++ lead :: (cs ++ [c]) = (pre ++ lead :: cs) ++ [c] := by
      simp
    have hclen : ((pre ++ lead :: cs) ++ [c]).length = (pre ++ lead :: cs).length + 1 := by
      rw [List.length_append]
      rfl
    rw [hstep, hclen]
    unfold bsLoop
    rw [getD_append_length (pre ++ lead :: cs) c [] 0]
    have hcc : c &&& 0xc0 = 0x80 := hc c (by simp)
    have hpos : 0 < (pre ++ lead :: cs).length := by simp
    rw [if_pos ⟨hcc, hpos⟩]
    rw [bsLoop_append (pre ++ lead :: cs) [c] _ le_rfl]
    exact ih fun b hb => hc b (by simp [hb])

/-- Claim C7: in `mu_textbox_raw`, when the control is focused and
Backspace is pressed on a non-empty buffer (with no pending text
input), exactly one UTF-8 code point is removed from the end: the code
walks back over trailing bytes `b` with `(b & 0xC0) == 0x80` and
truncates there, and the result reports `MU_RES_CHANGE`. -/
theorem C7_backspace_utf8 (ctx : Ctx) (bufsz : Nat) (id : Nat) (r : Rect) (opt : Nat)
    (pre conts : List Nat) (lead : Nat)
    (hclip : ctx.clip_stack ≠ []) (hf : ctx.focus = id) (hmp : ctx.mouse_pressed = 0)
    (hit : ctx.input_text = []) (hkp : ctx.key_pressed = MU_KEY_BACKSPACE)
    (hl : lead &&& 0xc0 ≠ 0x80) (hc : ∀ b ∈ conts, b &&& 0xc0 = 0x80) :
    (mu_textbox_raw ctx (pre ++ lead :: conts) bufsz id r opt).map
      (fun t => (t.1, t.2.1)) = some (MU_RES_CHANGE, pre) := by
  obtain ⟨cu, hcu⟩ :=
    update_control_some ctx id r (opt ||| MU_OPT_HOLDFOCUS) hclip
  have hopt : (opt ||| MU_OPT_HOLDFOCUS) &&& MU_OPT_HOLDFOCUS ≠ 0 := by
    rw [lor_land_self]
    unfold MU_OPT_HOLDFOCUS
    omega
  have hfu : cu.focus = id :=
    update_control_focus_kept ctx id r _ cu hf hmp hopt hcu
  obtain ⟨_, hkp2, hit2, _⟩ := update_control_preserved ctx id r _ cu hcu
  unfold mu_textbox_raw
  rw [hcu]
  dsimp only
  rw [if_pos hfu, hit2, hit]
  simp only [List.length_nil, Nat.cast_zero]
  have hn : ¬ (0 : Int) <
      mu_min ((bufsz : Int) - ((pre ++ lead :: conts).length : Int) - 1) 0 := by
    unfold mu_min
    split_ifs <;> omega
  rw [if_neg hn]
  dsimp only
  have hbs : cu.key_pressed &&& MU_KEY_BACKSPACE ≠ 0 ∧
      0 < (pre ++ lead :: conts).length := by
    rw [hkp2, hkp]
    exact ⟨by decide, by simp⟩
  rw [if_pos hbs]
  dsimp only
  have hret : ¬ (cu.key_pressed &&& MU_KEY_RETURN ≠ 0) := by
    rw [hkp2, hkp]
    decide
  rw [if_neg hret]
  rw [bsLoop_spec pre lead hl conts hc, List.take_left]
  rfl

/-- Witness for C7: the byte buffer `"héllo"` (68 C3 A9 6C 6C 6F);
four successive backspaces remove `o`, `l`, `l`, then the two-byte `é`
as a single unit. -/
theorem C7_backspace_utf8_witness :
    (mu_textbox_raw { focus := 1, clip_stack := [⟨0, 0, 1000, 1000⟩], key_pressed := 8 }
        [0x68, 0xc3, 0xa9, 0x6c, 0x6c, 0x6f] 64 1 ⟨0, 0, 10, 10⟩ 0).map
      (fun t => (t.1, t.2.1)) = some (MU_RES_CHANGE, [0x68, 0xc3, 0xa9, 0x6c, 0x6c]) ∧
    (mu_textbox_raw { focus := 1, clip_stack := [⟨0, 0, 1000, 1000⟩], key_pressed := 8 }
        [0x68, 0xc3, 0xa9, 0x6c, 0x6c] 64 1 ⟨0, 0, 10, 10⟩ 0).map
      (fun t => (t.1, t.2.1)) = some (MU_RES_CHANGE, [0x68, 0xc3, 0xa9, 0x6c]) ∧
    (mu_textbox_raw { focus := 1, clip_stack := [⟨0, 0, 1000, 1000⟩], key_pressed := 8 }
        [0x68, 0xc3, 0xa9, 0x6c] 64 1 ⟨0, 0, 10, 10⟩ 0).map
      (fun t => (t.1, t.2.1)) = some (MU_RES_CHANGE, [0x68, 0xc3, 0xa9]) ∧
    (mu_textbox_raw { focus := 1, clip_stack := [⟨0, 0, 1000, 1000⟩], key_pressed := 8 }
        [0x68, 0xc3, 0xa9] 64 1 ⟨0, 0, 10, 10⟩ 0).map
      (fun t => (t.1, t.2.1)) = some (MU_RES_CHANGE, [0x68]) :=
  ⟨C7_backspace_utf8 _ 64 1 ⟨0, 0, 10, 10⟩ 0 [0x68, 0xc3, 0xa9, 0x6c, 0x6c] [] 0x6f
      (by decide) rfl rfl rfl rfl (by decide) (by decide),
   C7_backspace_utf8 _ 64 1 ⟨0, 0, 10, 10⟩ 0 [0x68, 0xc3, 0xa9, 0x6c] [] 0x6c
      (by decide) rfl rfl rfl rfl (by decide) (by decide),
   C7_backspace_utf8 _ 64 1 ⟨0, 0, 10, 10⟩ 0 [0x68, 0xc3, 0xa9] [] 0x6c
      (by decide) rfl rfl rfl rfl (by decide) (by decide),
   C7_backspace_utf8 _ 64 1 ⟨0, 0, 10, 10⟩ 0 [0x68] [0xa9] 0xc3
      (by decide) rfl rfl rfl rfl (by decide) (by decide)⟩

/-! ## C9: slider quantization and clamping -/

/-- A successful `mu_layout_next` only replaces the layout stack and
`last_rect`. -/
theorem layout_next_shape (ctx : Ctx) (r : Rect) (c2 : Ctx)
    (h : mu_layout_next ctx = some (r, c2)) :
    ∃ ls lr, c2 = { ctx with layout_stack := ls, last_rect := lr } := by
  unfold mu_layout_next at h
  split at h
  · cases h
  · injection h with h2
    have h3 := congrArg Prod.snd h2
    exact ⟨_, _, h3.symm⟩

/-- `number_textbox` is the identity when the control is not in
number-edit mode and no Shift-click targets it. -/
theorem number_textbox_inactive (fmtF : ℚ → List Nat) (strtodF : List Nat → ℚ)
    (ctx : Ctx) (value : ℚ) (r : Rect) (id : Nat)
    (hne : ctx.number_edit ≠ id)
    (hsh : ¬(ctx.mouse_pressed = MU_MOUSE_LEFT ∧ ctx.key_down &&& MU_KEY_SHIFT ≠ 0 ∧
             ctx.hover = id)) :
    number_textbox fmtF strtodF ctx value r id = some (false, value, ctx) := by
  unfold number_textbox
  rw [if_neg hsh]
  rw [if_neg hne]

/-- `mu_clamp` lands in the interval when the bounds are ordered. -/
theorem mu_clamp_mem (x a b : ℚ) (hab : a ≤ b) :
    a ≤ mu_clamp x a b ∧ mu_clamp x a b ≤ b := by
  unfold mu_clamp mu_min mu_max
  split_ifs <;> constructor <;> linarith

/-- The slider's `MU_RES_CHANGE` flag is set iff the stored value
differs from the entry value. -/
theorem change_iff_aux (value X : ℚ) :
    ((if value ≠ X then MU_RES_CHANGE else 0) &&& MU_RES_CHANGE ≠ 0) ↔ X ≠ value := by
  split_ifs with hy
  · simp only [MU_RES_CHANGE, Nat.and_self]
    constructor
    · intro _; exact Ne.symm hy
    · intro _; decide
  · push_neg at hy
    simp [hy, MU_RES_CHANGE]

/-- Claim C9 amended: for `mu_slider_ex` with `step > 0` and
`low ≤ high`, outside number-edit mode, the stored value is the clamp
to `[low, high]` of either the entry value or an exact integer multiple
of `step` (so it always lies within `[low, high]`, but at the bounds it
need not itself be a multiple of `step`); the result includes
`MU_RES_CHANGE` iff the stored value differs from the value on entry. -/
theorem C9_slider_step_clamp (fmtF : ℚ → List Nat) (strtodF : List Nat → ℚ)
    (ctx : Ctx) (value : ℚ) (addr : List Nat) (low high step : ℚ) (opt : Nat)
    (v2 : ℚ) (res : Nat)
    (hstep : 0 < step) (hlh : low ≤ high)
    (hne : ctx.number_edit ≠ (mu_get_id ctx addr).1)
    (hsh : ¬(ctx.mouse_pressed = MU_MOUSE_LEFT ∧ ctx.key_down &&& MU_KEY_SHIFT ≠ 0 ∧
             ctx.hover = (mu_get_id ctx addr).1))
    (h : (mu_slider_ex fmtF strtodF ctx value addr low high step opt).map
           (fun t => (t.1, t.2.1)) = some (v2, res)) :
    low ≤ v2 ∧ v2 ≤ high ∧
    (v2 = mu_clamp value low high ∨ ∃ m : ℤ, v2 = mu_clamp ((m : ℚ) * step) low high) ∧
    (res &&& MU_RES_CHANGE ≠ 0 ↔ v2 ≠ value) := by
  unfold mu_slider_ex at h
  dsimp only at h
  cases hln : mu_layout_next (mu_get_id ctx addr).2 with
  | none => rw [hln] at h; simp at h
  | some p =>
    obtain ⟨base, ctx1⟩ := p
    rw [hln] at h
    dsimp only at h
    obtain ⟨ls, lr, hc1⟩ := layout_next_shape (mu_get_id ctx addr).2 base ctx1 hln
    have hne1 : ctx1.number_edit ≠ (mu_get_id ctx addr).1 := by rw [hc1]; exact hne
    have hsh1 : ¬(ctx1.mouse_pressed = MU_MOUSE_LEFT ∧
        ctx1.key_down &&& MU_KEY_SHIFT ≠ 0 ∧ ctx1.hover = (mu_get_id ctx addr).1) := by
      rw [hc1]; exact hsh
    rw [number_textbox_inactive fmtF strtodF ctx1 value base _ hne1 hsh1] at h
    dsimp only at h
    rw [if_neg Bool.false_ne_true] at h
    cases huc : mu_update_control ctx1 (mu_get_id ctx addr).1 base opt with
    | none => rw [huc] at h; simp at h
    | some ctx2 =>
      rw [huc] at h
      dsimp only [Option.map] at h
      injection h with h2
      rw [Prod.mk.injEq] at h2
      obtain ⟨hv, hr⟩ := h2
      subst hv
      subst hr
      by_cases hd : ctx2.focus = (mu_get_id ctx addr).1 ∧
          (ctx2.mouse_down ||| ctx2.mouse_pressed) = MU_MOUSE_LEFT
      · rw [if_pos hd, if_pos hstep.ne']
        exact ⟨(mu_clamp_mem _ low high hlh).1, (mu_clamp_mem _ low high hlh).2,
          Or.inr ⟨_, rfl⟩, change_iff_aux value _⟩
      · rw [if_neg hd]
        exact ⟨(mu_clamp_mem _ low high hlh).1, (mu_clamp_mem _ low high hlh).2,
          Or.inl rfl, change_iff_aux value _⟩

/-- A concrete slider run shared by the C9 counterexample and witness:
a focused drag with `low = 0`, `high = 10`, `step = 4` and the mouse
past the right edge of the 10-wide base stores the clamped value `10`
(not a multiple of 4) and reports `MU_RES_CHANGE`. -/
theorem slider_eval_example :
    (mu_slider_ex (fun _ => []) (fun _ => 0)
        { focus := 7, id_stack := [7], clip_stack := [⟨0, 0, 1000, 1000⟩],
          layout_stack := [{ next := ⟨0, 0, 10, 20⟩, next_type := 2 }],
          mouse_pos := ⟨14, 5⟩, mouse_down := 1 }
        5 [] 0 10 4 0).map (fun t => (t.1, t.2.1)) = some (10, MU_RES_CHANGE) := by
  norm_num [mu_slider_ex, mu_get_id, hashBytes, mu_layout_next, layoutNextCore,
    layoutFinish, layoutRowCore, number_textbox, mu_update_control, mu_mouse_over,
    mu_get_clip_rect, rect_overlaps_vec2, in_hover_root, in_hover_root.go,
    ucFocusTouch, ucHoverSet, ucFocusDrop, ucHoverResolve, mu_set_focus,
    mu_clamp, mu_min, mu_max, cTrunc, ABSOLUTE, MU_MOUSE_LEFT, MU_KEY_SHIFT,
    MU_RES_CHANGE, MU_OPT_NOINTERACT, MU_OPT_HOLDFOCUS, HASH_INITIAL]

/-- Counterexample to claim C9 as stated: in the concrete drag above
the stored value is `10` (the clamp to `[0, 10]` of the quantized value
`16`), and `10` is not an integer multiple of the step `4`. -/
theorem C9_slider_counterexample :
    (mu_slider_ex (fun _ => []) (fun _ => 0)
        { focus := 7, id_stack := [7], clip_stack := [⟨0, 0, 1000, 1000⟩],
          layout_stack := [{ next := ⟨0, 0, 10, 20⟩, next_type := 2 }],
          mouse_pos := ⟨14, 5⟩, mouse_down := 1 }
        5 [] 0 10 4 0).map (fun t => (t.1, t.2.1)) = some (10, MU_RES_CHANGE) ∧
    ¬ ∃ m : ℤ, (10 : ℚ) = (m : ℚ) * 4 := by
  refine ⟨slider_eval_example, ?_⟩
  rintro ⟨m, hm⟩
  have h10 : (10 : ℤ) = m * 4 := by exact_mod_cast hm
  omega

/-- Witness for the amended C9 at the concrete drag above: the stored
value `10` is within `[0, 10]`, is the clamp of an integer multiple of
the step, and `MU_RES_CHANGE` is reported since `10 ≠ 5`. -/
theorem C9_slider_step_clamp_witness :
    (0 : ℚ) ≤ 10 ∧ (10 : ℚ) ≤ 10 ∧
    ((10 : ℚ) = mu_clamp 5 0 10 ∨ ∃ m : ℤ, (10 : ℚ) = mu_clamp ((m : ℚ) * 4) 0 10) ∧
    (MU_RES_CHANGE &&& MU_RES_CHANGE ≠ 0 ↔ (10 : ℚ) ≠ 5) :=
  C9_slider_step_clamp (fun _ => []) (fun _ => 0)
    { focus := 7, id_stack := [7], clip_stack := [⟨0, 0, 1000, 1000⟩],
      layout_stack := [{ next := ⟨0, 0, 10, 20⟩, next_type := 2 }],
      mouse_pos := ⟨14, 5⟩, mouse_down := 1 }
    5 [] 0 10 4 0 10 MU_RES_CHANGE (by norm_num) (by norm_num)
    (by decide) (by decide) slider_eval_example

/-! ## C1: ground facts about the emitted frame buffer -/

/-- `bodyLen` of a cons. -/
theorem bodyLen_cons (c : Cmd) (cs : List Cmd) :
    bodyLen (c :: cs) = c.size + bodyLen cs := by
  simp [bodyLen]

/-- `bodyLen` of an append. -/
theorem bodyLen_append (b1 b2 : List Cmd) :
    bodyLen (b1 ++ b2) = bodyLen b1 + bodyLen b2 := by
  simp [bodyLen]

/-- Fetching from an appended buffer searches the first part first. -/
theorem fetch_append (b1 b2 : Buffer) (off : Nat) :
    fetch (b1 ++ b2) off =
      match fetch b1 off with
      | some c => some c
      | none => fetch b2 off := by
  induction b1 with
  | nil => rfl
  | cons cell rest ih =>
    obtain ⟨o, c⟩ := cell
    by_cases h : off = o
    · simp [fetch, h]
    · simp [fetch, h, ih]

/-- Fetching after `setAt`: the targeted offset is replaced (when it
exists), everything else is untouched. -/
theorem fetch_setAt (buf : Buffer) (o : Nat) (c : Cmd) (off : Nat) :
    fetch (setAt buf o c) off =
      if off = o then (fetch buf off).map (fun _ => c) else fetch buf off := by
  induction buf with
  | nil => by_cases h : off = o <;> simp [setAt, fetch, h]
  | cons cell rest ih =>
    obtain ⟨o1, c1⟩ := cell
    by_cases hoo : o = o1
    · subst hoo
      by_cases hfo : off = o
      · subst hfo
        simp [setAt, fetch]
      · simp [setAt, fetch, hfo, ih]
    · by_cases hfo : off = o1
      · have hno : off ≠ o := by rw [hfo]; exact fun hq => hoo hq.symm
        simp [setAt, fetch, hoo, hfo, hno, Ne.symm hoo]
      · simp [setAt, fetch, hoo, hfo, ih]

/-- `layoutBody` has one cell per command. -/
theorem layoutBody_length (o : Nat) (b : List Cmd) :
    (layoutBody o b).length = b.length := by
  induction b generalizing o with
  | nil => rfl
  | cons c cs ih => simp [layoutBody, ih]

/-- Any cell fetched from `layoutBody` lies within the body's byte
range (command sizes are positive). -/
theorem layoutBody_fetch_range (b : List Cmd) (o off : Nat) (c : Cmd)
    (hb : ∀ x ∈ b, 1 ≤ x.size) (h : fetch (layoutBody o b) off = some c) :
    o ≤ off ∧ off < o + bodyLen b := by
  induction b generalizing o with
  | nil => simp [layoutBody, fetch] at h
  | cons c0 cs ih =>
    rw [layoutBody] at h
    rw [bodyLen_cons]
    by_cases he : off = o
    · have h0 : 1 ≤ c0.size := hb c0 (by simp)
      have hnn : 0 ≤ bodyLen cs := Nat.zero_le _
      omega
    · rw [fetch, if_neg he] at h
      have := ih (o + c0.size) (fun x hx => hb x (by simp [hx])) h
      omega

/-- The `j`-th cell of `layoutBody` holds the `j`-th command. -/
theorem layoutBody_fetch_cell (b : List Cmd) (o j : Nat) (hj : j < b.length)
    (hb : ∀ x ∈ b, 1 ≤ x.size) :
    fetch (layoutBody o b) (cellOff o b j) = some (b.get ⟨j, hj⟩) := by
  induction b generalizing o j with
  | nil => simp at hj
  | cons c0 cs ih =>
    cases j with
    | zero => simp [layoutBody, fetch, cellOff, bodyLen]
    | succ j =>
      have hco : cellOff o (c0 :: cs) (j + 1) = cellOff (o + c0.size) cs j := by
        simp [cellOff, List.take_succ_cons, bodyLen_cons]
        omega
      have hne : cellOff (o + c0.size) cs j ≠ o := by
        have h0 : 1 ≤ c0.size := hb c0 (by simp)
        have : o + c0.size ≤ cellOff (o + c0.size) cs j := by
          simp [cellOff]
        omega
      rw [layoutBody, hco, fetch, if_neg hne]
      simpa using ih (o + c0.size) j (by simpa using Nat.lt_of_succ_lt_succ hj)
        (fun x hx => hb x (by simp [hx]))

/-- Cell offsets advance by the command's size. -/
theorem cellOff_succ (o : Nat) (b : List Cmd) (j : Nat) (hj : j < b.length) :
    cellOff o b j + (b.get ⟨j, hj⟩).size = cellOff o b (j + 1) := by
  unfold cellOff
  rw [List.take_succ]
  rw [bodyLen_append]
  have : b[j]? = some (b.get ⟨j, hj⟩) := by
    rw [List.getElem?_eq_getElem hj]
    rfl
  rw [this]
  simp [bodyLen]
  omega

/-- The offset of the cell one past the last command. -/
theorem cellOff_len (o : Nat) (b : List Cmd) :
    cellOff o b b.length = o + bodyLen b := by
  unfold cellOff
  rw [List.take_length]

/-- Offsets of commands within the body stay strictly before its end
(command sizes are positive). -/
theorem cellOff_lt_end (o : Nat) (b : List Cmd) (j : Nat) (hj : j < b.length)
    (hb : ∀ x ∈ b, 1 ≤ x.size) :
    cellOff o b j < o + bodyLen b := by
  induction b generalizing o j with
  | nil => simp at hj
  | cons c0 cs ih =>
    cases j with
    | zero =>
      have h0 : 1 ≤ c0.size := hb c0 (by simp)
      simp only [cellOff, List.take_zero, bodyLen_cons]
      have : bodyLen ([] : List Cmd) = 0 := rfl
      rw [this]
      omega
    | succ j =>
      have hco : cellOff o (c0 :: cs) (j + 1) = cellOff (o + c0.size) cs j := by
        simp [cellOff, List.take_succ_cons, bodyLen_cons]
        omega
      rw [hco, bodyLen_cons]
      have := ih (o + c0.size) j (by simpa using Nat.lt_of_succ_lt_succ hj)
        (fun x hx => hb x (by simp [hx]))
      omega

/-- Any cell of a root's block lies within its byte range. -/
theorem emitRoot_fetch_range (o : Nat) (r : RootDecl) (off : Nat) (c : Cmd)
    (hb : ∀ x ∈ r.body, 1 ≤ x.size) (h : fetch (emitRoot o r) off = some c) :
    o ≤ off ∧ off < o + blockLen r := by
  have hjs : jsize = 16 := rfl
  rw [emitRoot, fetch] at h
  by_cases he : off = o
  · have : 0 < blockLen r := by unfold blockLen; omega
    omega
  · rw [if_neg he, fetch_append] at h
    unfold blockLen
    split at h
    · rename_i c2 hfl
      have := layoutBody_fetch_range r.body (o + jsize) off c2 hb hfl
      omega
    · rw [fetch] at h
      by_cases ht : off = o + jsize + bodyLen r.body
      · omega
      · rw [if_neg ht, fetch] at h
        cases h

/-- The first cell of a root's block is its head jump, whose
destination `end_root_container` set to the end of the block. -/
theorem emitRoot_fetch_head (o : Nat) (r : RootDecl) :
    fetch (emitRoot o r) o = some (.jump (some (o + blockLen r))) := by
  simp [emitRoot, fetch]

/-- The body cells of a root's block hold its commands. -/
theorem emitRoot_fetch_cell (o : Nat) (r : RootDecl) (j : Nat) (hj : j < r.body.length)
    (hb : ∀ x ∈ r.body, 1 ≤ x.size) :
    fetch (emitRoot o r) (cellOff (o + jsize) r.body j) =
      some (r.body.get ⟨j, hj⟩) := by
  have hjs : jsize = 16 := rfl
  have hge : o + jsize ≤ cellOff (o + jsize) r.body j := Nat.le_add_right _ _
  have hne : cellOff (o + jsize) r.body j ≠ o := by omega
  rw [emitRoot, fetch, if_neg hne, fetch_append,
    layoutBody_fetch_cell r.body (o + jsize) j hj hb]

/-- The last cell of a root's block is its tail jump, pushed with a
NULL destination. -/
theorem emitRoot_fetch_tail (o : Nat) (r : RootDecl)
    (hb : ∀ x ∈ r.body, 1 ≤ x.size) :
    fetch (emitRoot o r) (o + jsize + bodyLen r.body) = some (.jump none) := by
  have hjs : jsize = 16 := rfl
  have hne : o + jsize + bodyLen r.body ≠ o := by omega
  rw [emitRoot, fetch, if_neg hne, fetch_append]
  have hfl : fetch (layoutBody (o + jsize) r.body) (o + jsize + bodyLen r.body) = none := by
    cases hq : fetch (layoutBody (o + jsize) r.body) (o + jsize + bodyLen r.body) with
    | none => rfl
    | some c2 =>
      have := layoutBody_fetch_range r.body (o + jsize) _ c2 hb hq
      omega
  rw [hfl]
  simp [fetch]

/-- Annotated roots lie within the frame's byte range. -/
theorem annotate_range (rs : List RootDecl) (o0 o : Nat) (r : RootDecl)
    (h : (o, r) ∈ annotate o0 rs) :
    o0 ≤ o ∧ o + blockLen r ≤ o0 + frameLen rs := by
  induction rs generalizing o0 with
  | nil => simp [annotate] at h
  | cons r0 rs0 ih =>
    rw [annotate] at h
    rcases List.mem_cons.mp h with he | ht
    · injection he with h1 h2
      subst h1
      subst h2
      rw [frameLen]
      omega
    · have := ih (o0 + blockLen r0) ht
      rw [frameLen]
      omega

/-- Annotated roots are declared roots. -/
theorem annotate_root_mem (rs : List RootDecl) (o0 o : Nat) (r : RootDecl)
    (h : (o, r) ∈ annotate o0 rs) : r ∈ rs := by
  induction rs generalizing o0 with
  | nil => simp [annotate] at h
  | cons r0 rs0 ih =>
    rw [annotate] at h
    rcases List.mem_cons.mp h with he | ht
    · injection he with h1 h2
      subst h2
      simp
    · exact List.mem_cons.mpr (Or.inr (ih (o0 + blockLen r0) ht))

/-- The annotation is empty only for the empty frame. -/
theorem annotate_eq_nil (rs : List RootDecl) (o0 : Nat)
    (h : annotate o0 rs = []) : rs = [] := by
  cases rs with
  | nil => rfl
  | cons r rs0 => simp [annotate] at h

/-- Distinct annotated roots occupy disjoint byte ranges, in
declaration order. -/
theorem annotate_pairwise (rs : List RootDecl) (o0 : Nat) :
    List.Pairwise (fun a b => a.1 + blockLen a.2 ≤ b.1) (annotate o0 rs) := by
  induction rs generalizing o0 with
  | nil => simp [annotate]
  | cons r0 rs0 ih =>
    rw [annotate]
    refine List.Pairwise.cons ?_ (ih (o0 + blockLen r0))
    intro b hb
    exact (annotate_range rs0 (o0 + blockLen r0) b.1 b.2 hb).1

/-- A cell that a root's own block holds is found in the whole frame
buffer (blocks at different offsets never shadow each other). -/
theorem emitFrame_fetch_mem (rs : List RootDecl) (o0 o : Nat) (r : RootDecl)
    (hbody : ∀ x ∈ rs, ∀ c ∈ x.body, 1 ≤ c.size)
    (hmem : (o, r) ∈ annotate o0 rs) (off : Nat) (c : Cmd)
    (h : fetch (emitRoot o r) off = some c) :
    fetch (emitFrame o0 rs) off = some c := by
  induction rs generalizing o0 with
  | nil => simp [annotate] at hmem
  | cons r0 rs0 ih =>
    rw [emitFrame, fetch_append]
    rw [annotate] at hmem
    rcases List.mem_cons.mp hmem with he | ht
    · injection he with h1 h2
      subst h1
      subst h2
      rw [h]
    · cases hf0 : fetch (emitRoot o0 r0) off with
      | none => exact ih (o0 + blockLen r0) (fun x hx cc hcc => hbody x (by simp [hx]) cc hcc) ht
      | some c2 =>
        have hr0 := emitRoot_fetch_range o0 r0 off c2
          (hbody r0 (by simp)) hf0
        have hob := (annotate_range rs0 (o0 + blockLen r0) o r ht).1
        have hrng := emitRoot_fetch_range o r off c
          (hbody r (by simp [annotate_root_mem rs0 _ o r ht])) h
        omega

/-- Every cell of the frame buffer lies in the frame's byte range. -/
theorem emitFrame_fetch_range (rs : List RootDecl) (o0 off : Nat) (c : Cmd)
    (hbody : ∀ x ∈ rs, ∀ cc ∈ x.body, 1 ≤ cc.size)
    (h : fetch (emitFrame o0 rs) off = some c) :
    o0 ≤ off ∧ off < o0 + frameLen rs := by
  induction rs generalizing o0 with
  | nil => simp [emitFrame, fetch] at h
  | cons r0 rs0 ih =>
    rw [emitFrame, fetch_append] at h
    rw [frameLen]
    split at h
    · rename_i c2 hf0
      have := emitRoot_fetch_range o0 r0 off c2 (hbody r0 (by simp)) hf0
      injection h with h2
      omega
    · have := ih (o0 + blockLen r0) (fun x hx cc hcc => hbody x (by simp [hx]) cc hcc) h
      omega

/-! ## C1: the patched buffer -/

/-- `patchTails` leaves every cell other than the patched tail jumps
untouched. -/
theorem patchTails_fetch_ne (total : Nat) (l : List (Nat × RootDecl)) :
    ∀ (buf : Buffer) (off : Nat), (∀ σ ∈ l, tailOffA σ ≠ off) →
      fetch (patchTails total buf l) off = fetch buf off := by
  induction l with
  | nil => intro buf off _; rfl
  | cons a t ih =>
    intro buf off hoff
    cases t with
    | nil =>
      rw [patchTails, fetch_setAt,
        if_neg (fun hq => hoff a (by simp) hq.symm)]
    | cons b t2 =>
      rw [patchTails,
        ih (setAt buf (tailOffA a) (.jump (some (b.1 + jsize)))) off
          (fun σ hσ => hoff σ (by simp [hσ])),
        fetch_setAt, if_neg (fun hq => hoff a (by simp) hq.symm)]

/-- `patchTails` points each root's tail jump just past the next
sorted root's head jump (or at the end of the buffer for the last). -/
theorem patchTails_fetch_tail (total : Nat) (l : List (Nat × RootDecl)) :
    ∀ (buf : Buffer) (s1 s2 : List (Nat × RootDecl)) (σ : Nat × RootDecl),
      l = s1 ++ σ :: s2 →
      List.Pairwise (fun a b => tailOffA a ≠ tailOffA b) l →
      (fetch buf (tailOffA σ)).isSome = true →
      fetch (patchTails total buf l) (tailOffA σ) =
        some (.jump (some (entryOff total s2))) := by
  induction l with
  | nil =>
    intro buf s1 s2 σ hl _ _
    cases s1 <;> simp at hl
  | cons a t ih =>
    intro buf s1 s2 σ hl hpair hsome
    cases t with
    | nil =>
      have hs1 : s1 = [] ∧ σ = a ∧ s2 = [] := by
        cases s1 with
        | nil => simpa [List.cons.injEq] using hl.symm
        | cons x s1x => cases s1x <;> simp at hl
      obtain ⟨_, rfl, rfl⟩ := hs1
      rw [patchTails, fetch_setAt, if_pos rfl]
      obtain ⟨c0, hc0⟩ := Option.isSome_iff_exists.mp hsome
      rw [hc0]
      rfl
    | cons b t2 =>
      rw [patchTails]
      cases s1 with
      | nil =>
        have hσ : σ = a ∧ s2 = b :: t2 := by
          injection hl.symm with h1 h2
          exact ⟨h1, h2⟩
        obtain ⟨rfl, rfl⟩ := hσ
        have hne : ∀ τ ∈ b :: t2, tailOffA τ ≠ tailOffA σ := by
          intro τ hτ hq
          exact ((List.pairwise_cons.mp hpair).1 τ hτ) hq.symm
        rw [patchTails_fetch_ne total (b :: t2) _ _ hne, fetch_setAt, if_pos rfl]
        obtain ⟨c0, hc0⟩ := Option.isSome_iff_exists.mp hsome
        rw [hc0]
        rfl
      | cons a2 s1x =>
        have hrest : b :: t2 = s1x ++ σ :: s2 := by
          injection hl
        have hσmem : σ ∈ b :: t2 := by rw [hrest]; simp
        have hne : tailOffA σ ≠ tailOffA a := by
          intro hq
          exact ((List.pairwise_cons.mp hpair).1 σ hσmem) hq.symm
        refine ih (setAt buf (tailOffA a) (.jump (some (b.1 + jsize)))) s1x s2 σ hrest
          (List.pairwise_cons.mp hpair).2 ?_
        rw [fetch_setAt, if_neg hne]
        exact hsome

/-- The tail offsets of distinct roots in the sorted list differ. -/
theorem s_tails_pairwise (rs : List RootDecl) (s : List (Nat × RootDecl))
    (hperm : (annotate 0 rs).Perm s) :
    List.Pairwise (fun a b => tailOffA a ≠ tailOffA b) s := by
  have h1 := annotate_pairwise rs 0
  have h2 : List.Pairwise (fun a b => tailOffA a ≠ tailOffA b) (annotate 0 rs) := by
    refine h1.imp ?_
    intro a b hab
    unfold tailOffA blockLen at *
    have hjs : jsize = 16 := rfl
    omega
  exact (hperm.pairwise_iff fun hab => hab.symm).mp h2

/-- Distinct annotated roots occupy disjoint byte ranges. -/
theorem blocks_disjoint (rs : List RootDecl) (a b : Nat × RootDecl)
    (ha : a ∈ annotate 0 rs) (hb : b ∈ annotate 0 rs) (hne : a ≠ b) :
    a.1 + blockLen a.2 ≤ b.1 ∨ b.1 + blockLen b.2 ≤ a.1 := by
  have hp2 : List.Pairwise
      (fun x y : Nat × RootDecl =>
        x.1 + blockLen x.2 ≤ y.1 ∨ y.1 + blockLen y.2 ≤ x.1) (annotate 0 rs) :=
    (annotate_pairwise rs 0).imp fun h => Or.inl h
  exact hp2.forall (fun x y h => h.symm) ha hb hne

/-- In the patched buffer, the very first cell is the first declared
root's head jump, re-pointed just past the first sorted root's head. -/
theorem patched_fetch_zero (rs : List RootDecl) (s : List (Nat × RootDecl))
    (a : Nat × RootDecl) (t : List (Nat × RootDecl)) (hs : s = a :: t)
    (hperm : (annotate 0 rs).Perm s) :
    fetch (muEndPatch (frameLen rs) (emitFrame 0 rs) s) 0 =
      some (.jump (some (a.1 + jsize))) := by
  have hjs : jsize = 16 := rfl
  cases rs with
  | nil =>
    rw [show annotate 0 ([] : List RootDecl) = [] from rfl] at hperm
    rw [hperm.symm.eq_nil] at hs
    cases hs
  | cons r0 rs0 =>
    subst hs
    rw [muEndPatch]
    have hne0 : ∀ σ ∈ a :: t, tailOffA σ ≠ 0 := by
      intro σ _
      unfold tailOffA
      omega
    rw [patchTails_fetch_ne _ _ _ _ hne0, fetch_setAt, if_pos rfl]
    rw [show emitFrame 0 (r0 :: rs0) = emitRoot 0 r0 ++ emitFrame (0 + blockLen r0) rs0
      from rfl]
    rw [fetch_append, emitRoot_fetch_head]
    rfl

/-- In the patched buffer, body cells are untouched. -/
theorem patched_fetch_cell (rs : List RootDecl) (s : List (Nat × RootDecl))
    (hbody : ∀ x ∈ rs, ∀ c ∈ x.body, 1 ≤ c.size)
    (hperm : (annotate 0 rs).Perm s)
    (σ : Nat × RootDecl) (hσ : σ ∈ s) (j : Nat) (hj : j < σ.2.body.length) :
    fetch (muEndPatch (frameLen rs) (emitFrame 0 rs) s)
        (cellOff (σ.1 + jsize) σ.2.body j) =
      some (σ.2.body.get ⟨j, hj⟩) := by
  have hjs : jsize = 16 := rfl
  have hσa : σ ∈ annotate 0 rs := hperm.mem_iff.mpr hσ
  have hσsz : ∀ c ∈ σ.2.body, 1 ≤ c.size :=
    hbody σ.2 (annotate_root_mem rs 0 σ.1 σ.2 (by simpa using hσa))
  have hoffge : σ.1 + jsize ≤ cellOff (σ.1 + jsize) σ.2.body j := Nat.le_add_right _ _
  have hofflt : cellOff (σ.1 + jsize) σ.2.body j < σ.1 + jsize + bodyLen σ.2.body :=
    cellOff_lt_end (σ.1 + jsize) σ.2.body j hj hσsz
  have hnetails : ∀ τ ∈ s, tailOffA τ ≠ cellOff (σ.1 + jsize) σ.2.body j := by
    intro τ hτ
    by_cases hts : τ = σ
    · subst hts
      unfold tailOffA
      omega
    · have hτa : τ ∈ annotate 0 rs := hperm.mem_iff.mpr hτ
      have hd := blocks_disjoint rs τ σ hτa hσa hts
      have htlt : tailOffA τ < τ.1 + blockLen τ.2 := by
        unfold tailOffA blockLen
        omega
      have htge : τ.1 ≤ tailOffA τ := by
        unfold tailOffA
        omega
      have hblk : cellOff (σ.1 + jsize) σ.2.body j < σ.1 + blockLen σ.2 := by
        unfold blockLen
        omega
      omega
  cases s with
  | nil => cases hσ
  | cons a t =>
    rw [muEndPatch, patchTails_fetch_ne _ _ _ _ hnetails, fetch_setAt,
      if_neg (by omega), emitFrame_fetch_mem rs 0 σ.1 σ.2 hbody (by simpa using hσa) _ _
        (emitRoot_fetch_cell σ.1 σ.2 j hj hσsz)]

/-- In the patched buffer, each sorted root's tail jump leads to the
entry of the rest of the sorted list. -/
theorem patched_fetch_tail (rs : List RootDecl) (s : List (Nat × RootDecl))
    (hbody : ∀ x ∈ rs, ∀ c ∈ x.body, 1 ≤ c.size)
    (hperm : (annotate 0 rs).Perm s)
    (s1 s2 : List (Nat × RootDecl)) (σ : Nat × RootDecl)
    (hsplit : s = s1 ++ σ :: s2) :
    fetch (muEndPatch (frameLen rs) (emitFrame 0 rs) s) (tailOffA σ) =
      some (.jump (some (entryOff (frameLen rs) s2))) := by
  have hjs : jsize = 16 := rfl
  have hσ : σ ∈ s := by rw [hsplit]; simp
  have hσa : σ ∈ annotate 0 rs := hperm.mem_iff.mpr hσ
  have hσsz : ∀ c ∈ σ.2.body, 1 ≤ c.size :=
    hbody σ.2 (annotate_root_mem rs 0 σ.1 σ.2 (by simpa using hσa))
  have hsome : (fetch (setAt (emitFrame 0 rs) 0
      (Cmd.jump (some ((s.headD σ).1 + jsize)))) (tailOffA σ)).isSome = true := by
    rw [fetch_setAt, if_neg (by unfold tailOffA; omega)]
    unfold tailOffA
    rw [emitFrame_fetch_mem rs 0 σ.1 σ.2 hbody (by simpa using hσa) _ _
      (emitRoot_fetch_tail σ.1 σ.2 hσsz)]
    rfl
  cases hsc : s with
  | nil => rw [hsc] at hσ; cases hσ
  | cons a t =>
    rw [muEndPatch]
    refine patchTails_fetch_tail (frameLen rs) (a :: t) _ s1 s2 σ (hsc ▸ hsplit)
      (hsc ▸ s_tails_pairwise rs s hperm) ?_
    have : (s.headD σ) = a := by rw [hsc]; rfl
    rw [← this]
    exact hsc ▸ hsome

/-! ## C1: following the patched chain -/

/-- The iterator stops at the end of the command list. -/
theorem jumpFollow_total (buf : Buffer) (total fuel : Nat) (h : 1 ≤ fuel) :
    jumpFollow buf total fuel total = none := by
  cases fuel with
  | zero => omega
  | succ f =>
    rw [jumpFollow, if_pos rfl]

/-- Entering any suffix of the sorted root list, the jump-following
loop lands on the first body command of the first root of the suffix
whose body is non-empty (or stops, past the last root). -/
theorem jumpFollow_entry (rs : List RootDecl) (s : List (Nat × RootDecl))
    (hbody : ∀ x ∈ rs, ∀ c ∈ x.body, c.isJump = false ∧ 1 ≤ c.size)
    (hperm : (annotate 0 rs).Perm s) :
    ∀ (t s1 : List (Nat × RootDecl)), s = s1 ++ t → ∀ fuel, t.length + 1 ≤ fuel →
      jumpFollow (muEndPatch (frameLen rs) (emitFrame 0 rs) s) (frameLen rs) fuel
        (entryOff (frameLen rs) t) = chainHead t := by
  intro t
  induction t with
  | nil =>
    intro s1 hsplit fuel hfuel
    rw [entryOff, chainHead]
    exact jumpFollow_total _ _ fuel (by simp only [List.length_nil] at hfuel; omega)
  | cons σ s2 ih =>
    intro s1 hsplit fuel hfuel
    have hsz : ∀ x ∈ rs, ∀ c ∈ x.body, 1 ≤ c.size := fun x hx c hc => (hbody x hx c hc).2
    have hσ : σ ∈ s := by rw [hsplit]; simp
    have hσa : σ ∈ annotate 0 rs := hperm.mem_iff.mpr hσ
    have hmem : σ.2 ∈ rs := annotate_root_mem rs 0 σ.1 σ.2 (by simpa using hσa)
    have hrange := annotate_range rs 0 σ.1 σ.2 (by simpa using hσa)
    have hjs : jsize = 16 := rfl
    have hfuel2 : s2.length + 1 ≤ fuel := by
      simp only [List.length_cons] at hfuel; omega
    cases fuel with
    | zero => omega
    | succ f =>
      rw [entryOff, jumpFollow]
      have hne : ¬ (σ.1 + jsize = frameLen rs) := by
        have h2 := hrange.2
        unfold blockLen at h2
        omega
      rw [if_neg hne]
      cases hb : σ.2.body with
      | nil =>
        have htl : tailOffA σ = σ.1 + jsize := by
          unfold tailOffA; rw [hb]; rfl
        have hft := patched_fetch_tail rs s hsz hperm s1 s2 σ hsplit
        rw [htl] at hft
        rw [hft, chainHead, hb]
        exact ih (s1 ++ [σ]) (by rw [hsplit]; simp) f
          (by simp only [List.length_cons] at hfuel; omega)
      | cons c cs =>
        have h0 : 0 < σ.2.body.length := by rw [hb]; simp
        have hcell := patched_fetch_cell rs s hsz hperm σ hσ 0 h0
        have hco : cellOff (σ.1 + jsize) σ.2.body 0 = σ.1 + jsize := by
          simp [cellOff, bodyLen]
        rw [hco] at hcell
        have hget : σ.2.body.get ⟨0, h0⟩ = c := by
          rw [List.get_eq_getElem]
          simp [hb]
        rw [hget] at hcell
        rw [hcell]
        have hcj : c.isJump = false := (hbody σ.2 hmem c (by rw [hb]; simp)).1
        cases c with
        | jump d => simp [Cmd.isJump] at hcj
        | draw tag sz =>
          rw [chainHead, hb]

/-- Following jumps from a root's tail jump lands on the first command
of the rest of the sorted list. -/
theorem jumpFollow_tail (rs : List RootDecl) (s : List (Nat × RootDecl))
    (hbody : ∀ x ∈ rs, ∀ c ∈ x.body, c.isJump = false ∧ 1 ≤ c.size)
    (hperm : (annotate 0 rs).Perm s)
    (s1 s2 : List (Nat × RootDecl)) (σ : Nat × RootDecl)
    (hsplit : s = s1 ++ σ :: s2) (fuel : Nat) (hfuel : s2.length + 2 ≤ fuel) :
    jumpFollow (muEndPatch (frameLen rs) (emitFrame 0 rs) s) (frameLen rs) fuel
      (tailOffA σ) = chainHead s2 := by
  have hsz : ∀ x ∈ rs, ∀ c ∈ x.body, 1 ≤ c.size := fun x hx c hc => (hbody x hx c hc).2
  have hσ : σ ∈ s := by rw [hsplit]; simp
  have hσa : σ ∈ annotate 0 rs := hperm.mem_iff.mpr hσ
  have hrange := annotate_range rs 0 σ.1 σ.2 (by simpa using hσa)
  have hjs : jsize = 16 := rfl
  cases fuel with
  | zero => omega
  | succ f =>
    rw [jumpFollow]
    have hne : ¬ (tailOffA σ = frameLen rs) := by
      have h2 := hrange.2
      unfold blockLen at h2
      simp only [tailOffA]
      omega
    rw [if_neg hne, patched_fetch_tail rs s hsz hperm s1 s2 σ hsplit]
    exact jumpFollow_entry rs s hbody hperm s2 (s1 ++ [σ]) (by rw [hsplit]; simp) f
      (by omega)

/-- Following jumps from byte offset 0 (the `NULL` cursor restarting at
the beginning of the buffer) lands on the first command of the sorted
list. -/
theorem jumpFollow_start (rs : List RootDecl) (s : List (Nat × RootDecl))
    (hbody : ∀ x ∈ rs, ∀ c ∈ x.body, c.isJump = false ∧ 1 ≤ c.size)
    (hperm : (annotate 0 rs).Perm s)
    (a : Nat × RootDecl) (t : List (Nat × RootDecl)) (hs : s = a :: t)
    (fuel : Nat) (hfuel : s.length + 2 ≤ fuel) :
    jumpFollow (muEndPatch (frameLen rs) (emitFrame 0 rs) s) (frameLen rs) fuel 0
      = chainHead s := by
  have ha : a ∈ s := by rw [hs]; simp
  have haa : a ∈ annotate 0 rs := hperm.mem_iff.mpr ha
  have hrange := annotate_range rs 0 a.1 a.2 (by simpa using haa)
  have hjs : jsize = 16 := rfl
  cases fuel with
  | zero =>
    rw [hs] at hfuel
    simp only [List.length_cons] at hfuel
    omega
  | succ f =>
    rw [jumpFollow]
    have hne : ¬ ((0 : Nat) = frameLen rs) := by
      have h2 := hrange.2
      unfold blockLen at h2
      omega
    rw [if_neg hne, patched_fetch_zero rs s a t hs hperm]
    have he : entryOff (frameLen rs) s = a.1 + jsize := by rw [hs]; rfl
    have hmain := jumpFollow_entry rs s hbody hperm s [] (by simp) f
      (by rw [hs] at hfuel ⊢; simp only [List.length_cons] at hfuel ⊢; omega)
    rw [he] at hmain
    exact hmain

/-- Iteration resumed from a returned record scans from the byte offset
just past it. -/
theorem collectFrom_some_eq_scan (buf : Buffer) (total fuel : Nat) :
    ∀ (steps o : Nat) (c : Cmd),
      collectFrom buf total fuel steps (some (o, c)) =
        scanCollect buf total fuel steps (o + c.size) := by
  intro steps
  induction steps with
  | zero => intro o c; rfl
  | succ m ih =>
    intro o c
    rw [collectFrom, scanCollect, mu_next_command]
    cases h : jumpFollow buf total fuel (o + c.size) with
    | none => rfl
    | some oc =>
      obtain ⟨o2, c2⟩ := oc
      dsimp only
      rw [ih o2 c2]

/-- The bodies of an empty root list. -/
theorem flatBodies_nil : flatBodies [] = [] := rfl

/-- The bodies of a non-empty root list. -/
theorem flatBodies_cons (a : Nat × RootDecl) (t : List (Nat × RootDecl)) :
    flatBodies (a :: t) = a.2.body ++ flatBodies t := by
  simp [flatBodies]

/-- Scanning from the entry of any suffix of the sorted root list
yields exactly the suffix's bodies, concatenated in order. -/
theorem scanCollect_suffix (rs : List RootDecl) (s : List (Nat × RootDecl))
    (hbody : ∀ x ∈ rs, ∀ c ∈ x.body, c.isJump = false ∧ 1 ≤ c.size)
    (hperm : (annotate 0 rs).Perm s) :
    ∀ (t s1 : List (Nat × RootDecl)), s = s1 ++ t →
      ∀ fuel steps, t.length + 1 ≤ fuel → (flatBodies t).length ≤ steps →
        scanCollect (muEndPatch (frameLen rs) (emitFrame 0 rs) s) (frameLen rs) fuel steps
          (entryOff (frameLen rs) t) = flatBodies t := by
  intro t
  induction t with
  | nil =>
    intro s1 hsplit fuel steps hfuel hsteps
    cases steps with
    | zero => rfl
    | succ m =>
      rw [scanCollect, entryOff,
        jumpFollow_total _ _ fuel (by simp only [List.length_nil] at hfuel; omega)]
      rfl
  | cons σ s2 ih =>
    intro s1 hsplit fuel steps hfuel hsteps
    have hsz : ∀ x ∈ rs, ∀ c ∈ x.body, 1 ≤ c.size := fun x hx c hc => (hbody x hx c hc).2
    have hσ : σ ∈ s := by rw [hsplit]; simp
    have hσa : σ ∈ annotate 0 rs := hperm.mem_iff.mpr hσ
    have hmem : σ.2 ∈ rs := annotate_root_mem rs 0 σ.1 σ.2 (by simpa using hσa)
    have hrange := annotate_range rs 0 σ.1 σ.2 (by simpa using hσa)
    have hjs : jsize = 16 := rfl
    have hfuel2 : s2.length + 2 ≤ fuel := by
      simp only [List.length_cons] at hfuel; omega
    have inner : ∀ k j, j + k = σ.2.body.length →
        ∀ st, k + (flatBodies s2).length ≤ st →
          scanCollect (muEndPatch (frameLen rs) (emitFrame 0 rs) s) (frameLen rs) fuel st
              (cellOff (σ.1 + jsize) σ.2.body j) =
            σ.2.body.drop j ++ flatBodies s2 := by
      intro k
      induction k with
      | zero =>
        intro j hj st hst
        have hjlen : j = σ.2.body.length := by omega
        subst hjlen
        rw [cellOff_len, show σ.1 + jsize + bodyLen σ.2.body = tailOffA σ from rfl,
          List.drop_length, List.nil_append]
        cases st with
        | zero =>
          have hnil : flatBodies s2 = [] := List.eq_nil_of_length_eq_zero (by omega)
          rw [hnil]
          rfl
        | succ m =>
          rw [scanCollect, jumpFollow_tail rs s hbody hperm s1 s2 σ hsplit fuel hfuel2]
          have hent := ih (s1 ++ [σ]) (by rw [hsplit]; simp) fuel (m + 1)
            (by omega) (by omega)
          rw [scanCollect, jumpFollow_entry rs s hbody hperm s2 (s1 ++ [σ])
            (by rw [hsplit]; simp) fuel (by omega)] at hent
          exact hent
      | succ k ihk =>
        intro j hj st hst
        have hjlt : j < σ.2.body.length := by omega
        cases st with
        | zero => omega
        | succ m =>
          rw [scanCollect]
          cases fuel with
          | zero => omega
          | succ f =>
            rw [jumpFollow]
            have hlt : cellOff (σ.1 + jsize) σ.2.body j < frameLen rs := by
              have h1 := cellOff_lt_end (σ.1 + jsize) σ.2.body j hjlt
                (fun x hx => hsz σ.2 hmem x hx)
              have h2 := hrange.2
              unfold blockLen at h2
              omega
            rw [if_neg (Nat.ne_of_lt hlt),
              patched_fetch_cell rs s hsz hperm σ hσ j hjlt]
            have hcj := hbody σ.2 hmem (σ.2.body.get ⟨j, hjlt⟩)
              (List.get_mem σ.2.body j hjlt)
            cases hgc : σ.2.body.get ⟨j, hjlt⟩ with
            | jump d =>
              rw [hgc] at hcj
              simp [Cmd.isJump] at hcj
            | draw tag sz =>
              dsimp only
              have hnext : cellOff (σ.1 + jsize) σ.2.body j + (Cmd.draw tag sz).size
                  = cellOff (σ.1 + jsize) σ.2.body (j + 1) := by
                have h3 := cellOff_succ (σ.1 + jsize) σ.2.body j hjlt
                rw [hgc] at h3
                exact h3
              rw [hnext, ihk (j + 1) (by omega) m (by omega)]
              have hdrop : σ.2.body.drop j = Cmd.draw tag sz :: σ.2.body.drop (j + 1) := by
                rw [List.drop_eq_getElem_cons hjlt]
                congr 1
              rw [hdrop]
              rfl
    have hflat : flatBodies (σ :: s2) = σ.2.body ++ flatBodies s2 := flatBodies_cons σ s2
    have hlen : σ.2.body.length + (flatBodies s2).length ≤ steps := by
      rw [hflat, List.length_append] at hsteps
      exact hsteps
    have h0 : entryOff (frameLen rs) (σ :: s2) = cellOff (σ.1 + jsize) σ.2.body 0 := by
      rw [entryOff]
      simp [cellOff, bodyLen]
    rw [h0, inner σ.2.body.length 0 (by omega) steps (by omega), List.drop_zero, hflat]

/-- Iterating `mu_next_command` from a NULL cursor over the patched
buffer yields exactly the sorted roots' bodies, concatenated. -/
theorem collectFrom_chain (rs : List RootDecl) (s : List (Nat × RootDecl))
    (hbody : ∀ x ∈ rs, ∀ c ∈ x.body, c.isJump = false ∧ 1 ≤ c.size)
    (hperm : (annotate 0 rs).Perm s)
    (fuel steps : Nat) (hfuel : s.length + 2 ≤ fuel)
    (hsteps : (flatBodies s).length ≤ steps) :
    collectFrom (muEndPatch (frameLen rs) (emitFrame 0 rs) s) (frameLen rs) fuel steps none
      = flatBodies s := by
  cases hs : s with
  | nil =>
    subst hs
    have hann : annotate 0 rs = [] := List.Perm.eq_nil hperm
    have hrs : rs = [] := annotate_eq_nil rs 0 hann
    subst hrs
    cases steps with
    | zero => rfl
    | succ m =>
      cases fuel with
      | zero => simp only [List.length_nil] at hfuel; omega
      | succ f =>
        rw [collectFrom, mu_next_command, jumpFollow,
          if_pos (show (0 : Nat) = frameLen [] from rfl)]
        rfl
  | cons a t =>
    subst hs
    cases steps with
    | zero =>
      have hnil : flatBodies (a :: t) = [] :=
        List.eq_nil_of_length_eq_zero (Nat.le_zero.mp hsteps)
      rw [hnil]
      rfl
    | succ m =>
      rw [collectFrom, mu_next_command,
        jumpFollow_start rs (a :: t) hbody hperm a t rfl fuel hfuel]
      have hscan := scanCollect_suffix rs (a :: t) hbody hperm (a :: t) [] rfl fuel
        (m + 1) (by simp only [List.length_cons] at hfuel ⊢; omega) hsteps
      rw [scanCollect, jumpFollow_entry rs (a :: t) hbody hperm (a :: t) [] rfl fuel
        (by simp only [List.length_cons] at hfuel ⊢; omega)] at hscan
      cases hch : chainHead (a :: t) with
      | none =>
        rw [hch] at hscan
        exact hscan
      | some oc =>
        obtain ⟨o, c⟩ := oc
        rw [hch] at hscan
        dsimp only at hscan ⊢
        rw [collectFrom_some_eq_scan]
        exact hscan

/-- Concatenated bodies of permuted root lists are permutations of one
another. -/
theorem perm_flatten_of_perm {l1 l2 : List (Nat × RootDecl)} (h : l1.Perm l2) :
    (flatBodies l1).Perm (flatBodies l2) := by
  induction h with
  | nil => exact .rfl
  | cons x _ ih =>
    rw [flatBodies_cons, flatBodies_cons]
    exact ih.append_left _
  | swap x y l =>
    rw [flatBodies_cons, flatBodies_cons, flatBodies_cons, flatBodies_cons,
      ← List.append_assoc, ← List.append_assoc]
    exact List.perm_append_comm.append_right _
  | trans _ _ ih1 ih2 => exact ih1.trans ih2

/-- The annotated roots carry exactly the declared bodies, in order. -/
theorem annotate_map_body (rs : List RootDecl) (o : Nat) :
    (annotate o rs).map (fun a => a.2.body) = rs.map RootDecl.body := by
  induction rs generalizing o with
  | nil => rfl
  | cons r rs0 ih => simp only [annotate, List.map_cons, ih]

/-- C1: for a frame of root containers (each body command a non-jump
record of positive size) whose command buffer `mu_end` patches along
the z-sorted root list `s` (any permutation of the declared roots
sorted by ascending z-index, as produced by `qsort`), iterating
`mu_next_command` from a NULL cursor returns exactly the sorted roots'
bodies concatenated in order: every non-jump record of the frame
exactly once (a permutation of the declared bodies), never a jump
record, root containers in ascending z-index order, and each root's
commands in the order they were emitted. -/
theorem C1_next_command_iteration (rs : List RootDecl) (s : List (Nat × RootDecl))
    (fuel steps : Nat)
    (hbody : ∀ r ∈ rs, ∀ c ∈ r.body, c.isJump = false ∧ 1 ≤ c.size)
    (hperm : (annotate 0 rs).Perm s)
    (hsort : s.Sorted (fun a b => a.2.zindex ≤ b.2.zindex))
    (hfuel : s.length + 2 ≤ fuel)
    (hsteps : (flatBodies s).length ≤ steps) :
    collectFrom (muEndPatch (frameLen rs) (emitFrame 0 rs) s) (frameLen rs) fuel steps none
        = flatBodies s ∧
      (flatBodies s).Perm ((rs.map RootDecl.body).flatten) ∧
      ∀ c ∈ flatBodies s, c.isJump = false := by
  refine ⟨collectFrom_chain rs s hbody hperm fuel steps hfuel hsteps, ?_, ?_⟩
  · have hp := (perm_flatten_of_perm hperm).symm
    have he : flatBodies (annotate 0 rs) = (rs.map RootDecl.body).flatten := by
      unfold flatBodies
      rw [annotate_map_body]
    rw [he] at hp
    exact hp
  · intro c hc
    have hc2 : ∃ a ∈ s, c ∈ a.2.body := by
      unfold flatBodies at hc
      obtain ⟨l, hl, hcl⟩ := List.mem_flatten.mp hc
      obtain ⟨a, ha, rfl⟩ := List.mem_map.mp hl
      exact ⟨a, ha, hcl⟩
    obtain ⟨a, ha, hca⟩ := hc2
    have haa : a ∈ annotate 0 rs := hperm.mem_iff.mpr ha
    exact (hbody a.2 (annotate_root_mem rs 0 a.1 a.2 (by simpa using haa)) c hca).1

/-- A concrete two-root frame: the first declared root has z-index 2
and one command, the second z-index 1 and two commands; iteration
visits the second root's commands first. -/
theorem C1_next_command_iteration_witness :
    (∀ r ∈ [RootDecl.mk 2 [Cmd.draw 7 4], RootDecl.mk 1 [Cmd.draw 8 4, Cmd.draw 9 4]],
        ∀ c ∈ r.body, c.isJump = false ∧ 1 ≤ c.size) ∧
      (annotate 0 [RootDecl.mk 2 [Cmd.draw 7 4],
          RootDecl.mk 1 [Cmd.draw 8 4, Cmd.draw 9 4]]).Perm
        [(36, RootDecl.mk 1 [Cmd.draw 8 4, Cmd.draw 9 4]), (0, RootDecl.mk 2 [Cmd.draw 7 4])] ∧
      ([(36, RootDecl.mk 1 [Cmd.draw 8 4, Cmd.draw 9 4]),
          (0, RootDecl.mk 2 [Cmd.draw 7 4])].Sorted (fun a b => a.2.zindex ≤ b.2.zindex)) ∧
      (collectFrom
          (muEndPatch
            (frameLen [RootDecl.mk 2 [Cmd.draw 7 4], RootDecl.mk 1 [Cmd.draw 8 4, Cmd.draw 9 4]])
            (emitFrame 0 [RootDecl.mk 2 [Cmd.draw 7 4], RootDecl.mk 1 [Cmd.draw 8 4, Cmd.draw 9 4]])
            [(36, RootDecl.mk 1 [Cmd.draw 8 4, Cmd.draw 9 4]), (0, RootDecl.mk 2 [Cmd.draw 7 4])])
          (frameLen [RootDecl.mk 2 [Cmd.draw 7 4], RootDecl.mk 1 [Cmd.draw 8 4, Cmd.draw 9 4]])
          4 3 none
          = flatBodies [(36, RootDecl.mk 1 [Cmd.draw 8 4, Cmd.draw 9 4]),
              (0, RootDecl.mk 2 [Cmd.draw 7 4])] ∧
        (flatBodies [(36, RootDecl.mk 1 [Cmd.draw 8 4, Cmd.draw 9 4]),
            (0, RootDecl.mk 2 [Cmd.draw 7 4])]).Perm
          (([RootDecl.mk 2 [Cmd.draw 7 4],
              RootDecl.mk 1 [Cmd.draw 8 4, Cmd.draw 9 4]].map RootDecl.body).flatten) ∧
        ∀ c ∈ flatBodies [(36, RootDecl.mk 1 [Cmd.draw 8 4, Cmd.draw 9 4]),
            (0, RootDecl.mk 2 [Cmd.draw 7 4])], c.isJump = false) :=
  ⟨by decide, by decide, by decide,
    C1_next_command_iteration
      [RootDecl.mk 2 [Cmd.draw 7 4], RootDecl.mk 1 [Cmd.draw 8 4, Cmd.draw 9 4]]
      [(36, RootDecl.mk 1 [Cmd.draw 8 4, Cmd.draw 9 4]), (0, RootDecl.mk 2 [Cmd.draw 7 4])]
      4 3 (by decide) (by decide) (by decide) (by decide) (by decide)⟩

end MicroUI
